import Mathlib

/-!
# Verification of the tieredsort library (`include/tieredsort.hpp`)

A shallow embedding of the tieredsort C++ header in Lean 4, together with
theorems settling the specification claims about it.

Conventions of the embedding:
* Machine integers are modelled as `Nat` (unsigned values, and raw bit
  patterns of floats) or `Int` (signed values), with `% 2^w` inserted
  exactly where the C++ arithmetic wraps.
* IEEE-754 `float`/`double` values are modelled by their raw bit patterns
  (a `Nat` below `2^32` / `2^64`): every operation the library performs on
  floats is a bit manipulation, so no real-number arithmetic is needed.
  The natural total order of the spec (§1, §7: "negative zero sorts
  strictly below positive zero") is the IEEE-754 total order on finite
  values, given by the signed sign/magnitude key `f32key` / `f64key`;
  the IEEE comparison `operator<` (under which `-0.0 == +0.0`) is given
  by the key `f32cmpKey` / `f64cmpKey`.
* Arrays are `List`s; in-place loops become folds over those lists, and
  the C++ index arrays (`count[256]`, the destination buffer of a radix
  pass) become functions `Nat → Nat` updated with `Function.update`.
* `std::vector` indexing that can be out of bounds (undefined behaviour
  in the source) is modelled with `Option`: `none` means the C++ code
  performed an out-of-bounds access.
* `std::sort` / `std::stable_sort` are external collaborators, not part of
  the repository; they are modelled from the spec (see `sortFallback`).
-/

namespace Tieredsort

/-! ## Bit codec (tieredsort.hpp lines 76-114)

`to_unsigned` converts each supported element type to a same-width
unsigned integer; `from_unsigned_*` are the inverses. -/

/-- `static_cast<uint32_t>(v)` for a signed 32-bit value `v : Int`
(two's complement): reduce modulo `2^32`. -/
def toBits32 (v : Int) : Nat := (v % (2 ^ 32 : Nat)).toNat

/-- `static_cast<uint64_t>(v)` for a signed 64-bit value. -/
def toBits64 (v : Int) : Nat := (v % (2 ^ 64 : Nat)).toNat

/-- `static_cast<int32_t>(u)` for `u < 2^32`: two's complement reading. -/
def ofBits32 (u : Nat) : Int := if u < 2 ^ 31 then (u : Int) else (u : Int) - 2 ^ 32

/-- `static_cast<int64_t>(u)` for `u < 2^64`. -/
def ofBits64 (u : Nat) : Int := if u < 2 ^ 63 then (u : Int) else (u : Int) - 2 ^ 64

/-- Line 77: `to_unsigned(int32_t v) = static_cast<uint32_t>(v) ^ 0x80000000u`. -/
def to_unsigned_i32 (v : Int) : Nat := toBits32 v ^^^ 0x80000000

/-- Line 78: `to_unsigned(int64_t v)`. -/
def to_unsigned_i64 (v : Int) : Nat := toBits64 v ^^^ 0x8000000000000000

/-- Line 79: `to_unsigned(uint32_t v) = v`. -/
def to_unsigned_u32 (v : Nat) : Nat := v

/-- Line 80: `to_unsigned(uint64_t v) = v`. -/
def to_unsigned_u64 (v : Nat) : Nat := v

/-- Lines 83-88: `to_unsigned(float v)` on the raw bit pattern `bits`:
`(bits & 0x80000000u) ? ~bits : (bits ^ 0x80000000u)`.  The 32-bit
bitwise NOT `~bits` is `bits ^ 0xFFFFFFFF`. -/
def to_unsigned_f32 (bits : Nat) : Nat :=
  if bits &&& 0x80000000 ≠ 0 then bits ^^^ 0xFFFFFFFF else bits ^^^ 0x80000000

/-- Lines 90-94: `to_unsigned(double v)` on the raw bit pattern. -/
def to_unsigned_f64 (bits : Nat) : Nat :=
  if bits &&& 0x8000000000000000 ≠ 0 then bits ^^^ 0xFFFFFFFFFFFFFFFF
  else bits ^^^ 0x8000000000000000

/-- Line 97: `from_unsigned_i32(uint32_t v) = static_cast<int32_t>(v ^ 0x80000000u)`. -/
def from_unsigned_i32 (v : Nat) : Int := ofBits32 (v ^^^ 0x80000000)

/-- Line 98: `from_unsigned_i64`. -/
def from_unsigned_i64 (v : Nat) : Int := ofBits64 (v ^^^ 0x8000000000000000)

/-- Line 99: `from_unsigned_u32(uint32_t v) = v`. -/
def from_unsigned_u32 (v : Nat) : Nat := v

/-- Line 100: `from_unsigned_u64(uint64_t v) = v`. -/
def from_unsigned_u64 (v : Nat) : Nat := v

/-- Lines 102-107: `from_unsigned_f32`:
`v = (v & 0x80000000u) ? (v ^ 0x80000000u) : ~v`, reinterpreted as float;
we return the resulting bit pattern. -/
def from_unsigned_f32 (v : Nat) : Nat :=
  if v &&& 0x80000000 ≠ 0 then v ^^^ 0x80000000 else v ^^^ 0xFFFFFFFF

/-- Lines 109-114: `from_unsigned_f64`. -/
def from_unsigned_f64 (v : Nat) : Nat :=
  if v &&& 0x8000000000000000 ≠ 0 then v ^^^ 0x8000000000000000
  else v ^^^ 0xFFFFFFFFFFFFFFFF

/-! ### The element orders used in the claims

For the float types the spec's natural order is the IEEE-754 total order
on finite values, with `-0.0` strictly below `+0.0`: `f32key`/`f64key`.
The comparison operators `<`/`<=` of the source instead use the IEEE
comparison semantics, under which `-0.0 == +0.0`: `f32cmpKey`/`f64cmpKey`.
Both are expressed as integer keys on the raw bit patterns. -/

/-- IEEE-754 total-order key of a binary32 bit pattern: a negative float
with magnitude bits `m` (pattern `2^31 + m`) maps to `-1 - m`, a
non-negative float with magnitude bits `m` maps to `m`. -/

def f32key (bits : Nat) : Int :=
  if 2 ^ 31 ≤ bits then -1 - ((bits : Int) - 2 ^ 31) else (bits : Int)

/-- IEEE-754 total-order key of a binary64 bit pattern. -/
def f64key (bits : Nat) : Int :=
  if 2 ^ 63 ≤ bits then -1 - ((bits : Int) - 2 ^ 63) else (bits : Int)

/-- Key realizing the IEEE comparison semantics of `operator<=` on
binary32 (both zeros map to `0`, so `-0.0` and `+0.0` compare equal). -/
def f32cmpKey (bits : Nat) : Int :=
  if 2 ^ 31 ≤ bits then -((bits : Int) - 2 ^ 31) else (bits : Int)

/-- Key realizing the IEEE comparison semantics of `operator<=` on binary64. -/
def f64cmpKey (bits : Nat) : Int :=
  if 2 ^ 63 ≤ bits then -((bits : Int) - 2 ^ 63) else (bits : Int)

/-- Finiteness of a binary32 bit pattern: exponent field not all ones. -/
def f32finite (bits : Nat) : Prop := (bits >>> 23) &&& 0xFF ≠ 0xFF

/-- Finiteness of a binary64 bit pattern: exponent field not all ones. -/
def f64finite (bits : Nat) : Prop := (bits >>> 52) &&& 0x7FF ≠ 0x7FF

/-! ## Tier 2: pattern detection (tieredsort.hpp lines 274-296)

`is_pattern_sorted` samples three four-element windows (prefix, midpoint,
suffix) with `operator<=`; it is `none` when the source would read out of
bounds, matching the `n < 8` early return.  The `pattern_window_*` and
`window_*` definitions name the windows and their monotonicity checks for
the claims about the detector. -/

def is_pattern_sorted (le : α → α → Bool) (l : List α) : Option Bool :=
  -- n < 8: return true.  Below, `m` = `n / 2` is written out as
  -- `l.length / 2`, and e.g. `head_asc` is the first `&&`-conjunction of
  -- the first `if`, `head_desc` the second, exactly as at lines 281-283.
  if l.length < 8 then some true else
  l[0]?.bind fun a0 => l[1]?.bind fun a1 => l[2]?.bind fun a2 => l[3]?.bind fun a3 =>
  if !(le a0 a1 && le a1 a2 && le a2 a3) && !(le a1 a0 && le a2 a1 && le a3 a2) then
    some false else
  l[l.length / 2 - 1]?.bind fun b0 => l[l.length / 2]?.bind fun b1 =>
  l[l.length / 2 + 1]?.bind fun b2 => l[l.length / 2 + 2]?.bind fun b3 =>
  if !(le b0 b1 && le b1 b2 && le b2 b3) && !(le b1 b0 && le b2 b1 && le b3 b2) then
    some false else
  l[l.length - 4]?.bind fun c0 => l[l.length - 3]?.bind fun c1 =>
  l[l.length - 2]?.bind fun c2 => l[l.length - 1]?.bind fun c3 =>
  if !(le c0 c1 && le c1 c2 && le c2 c3) && !(le c1 c0 && le c2 c1 && le c3 c2) then
    some false else
  some true

/-- The detector's result as a `Bool`, as consumed by the dispatch engine
(the detector never actually fails; see `c10_pattern_detector_in_bounds`). -/
def pattern_ok (le : α → α → Bool) (l : List α) : Bool :=
  (is_pattern_sorted le l).getD false

/-- The four-element window of consecutive indices starting at position 0. -/
def pattern_window_head : List Nat := [0, 1, 2, 3]

/-- The four-element window of consecutive indices starting at `n/2 - 1`. -/
def pattern_window_mid (n : Nat) : List Nat := [n / 2 - 1, n / 2, n / 2 + 1, n / 2 + 2]

/-- The four-element window of consecutive indices starting at `n - 4`. -/
def pattern_window_tail (n : Nat) : List Nat := [n - 4, n - 3, n - 2, n - 1]

/-- The four-element window at positions `i0 < i1 < i2 < i3` is ascending:
all three adjacent comparisons are `≤`. -/
def window_asc (le : α → α → Bool) (d : α) (l : List α) (i0 i1 i2 i3 : Nat) : Bool :=
  le (l.getD i0 d) (l.getD i1 d) && le (l.getD i1 d) (l.getD i2 d) &&
    le (l.getD i2 d) (l.getD i3 d)

/-- The four-element window at positions `i0 < i1 < i2 < i3` is descending:
all three adjacent comparisons are `≥`. -/
def window_desc (le : α → α → Bool) (d : α) (l : List α) (i0 i1 i2 i3 : Nat) : Bool :=
  le (l.getD i1 d) (l.getD i0 d) && le (l.getD i2 d) (l.getD i1 d) &&
    le (l.getD i3 d) (l.getD i2 d)

/-- A window is monotone if it is ascending or descending. -/
def window_mono (le : α → α → Bool) (d : α) (l : List α) (i0 i1 i2 i3 : Nat) : Bool :=
  window_asc le d l i0 i1 i2 i3 || window_desc le d l i0 i1 i2 i3

/-! ## Tier 3: dense range detection (tieredsort.hpp lines 302-359, 699-734) -/

/-- Lines 303-323, 64-bit unsigned branch of `safe_range<T>`:
`umax - umin + 1` in `uint64_t` arithmetic; both the subtraction and the
`+ 1` wrap modulo `2^64`. -/

def safe_range_u64 (umin umax : Nat) : Nat :=
  ((umax + 2 ^ 64 - umin) % 2 ^ 64 + 1) % 2 ^ 64

/-- Lines 303-323, 64-bit signed branch: flip the sign bit of both
endpoints (`static_cast<uint64_t>(v) ^ 0x8000000000000000ull`, which is
`to_unsigned_i64`), then proceed as unsigned. -/
def safe_range_i64 (min_val max_val : Int) : Nat :=
  safe_range_u64 (to_unsigned_i64 min_val) (to_unsigned_i64 max_val)

/-- Lines 305-309, widths ≤ 4 bytes: exact `int64_t` arithmetic
`(int64)max - (int64)min + 1`, cast to `uint64_t` (wraps modulo `2^64`,
i.e. `toBits64`; the detector only calls it with `min ≤ max`, where the
cast is exact). -/
def safe_range_32 (min_val max_val : Int) : Nat :=
  toBits64 (max_val - min_val + 1)

/-- The index sequence of the loop `for (i = 0; i < n; i += stride)`. -/
def strideIdxs (n stride : Nat) : List Nat :=
  (List.range ((n + stride - 1) / stride)).map (· * stride)

/-- The running min/max loop of `detect_dense_range` (lines 334-337 and
346-349): `if (arr[i] < min) min = arr[i]; if (arr[i] > max) max = arr[i];`
over the index list `idxs`, starting from `init`.  `lt` is C++
`operator<` at the element type; `d` is the (never used in bounds) read
default. -/
def minmax_fold (lt : α → α → Bool) (l : List α) (d : α) (idxs : List Nat)
    (init : α × α) : α × α :=
  idxs.foldl (fun mm i =>
    (if lt (l.getD i d) mm.1 then l.getD i d else mm.1,
     if lt mm.2 (l.getD i d) then l.getD i d else mm.2)) init

/-- Lines 330-337: sampled min/max with stride `max 1 (n / 64)`, starting
from `arr[0]`. -/
def sampled_minmax (lt : α → α → Bool) (l : List α) (x0 : α) : α × α :=
  minmax_fold lt l x0 (strideIdxs l.length (max 1 (l.length / 64))) (x0, x0)

/-- Lines 326-359, `detect_dense_range<T>`, generic over the element order
`lt` and the width-dependent `safe_range` instance `srange`.  Stage 1:
sampled min/max; reject if the estimated range exceeds `n`.  Stage 2:
full scan continuing from the sampled min/max; accept (returning the exact
min and max) iff the exact range is at most `2n`.  The source reads
`arr[0]` unconditionally and is only invoked with `n ≥ 256`; the empty
list returns `none`. -/
def detect_dense_range (lt : α → α → Bool) (srange : α → α → Nat)
    (l : List α) : Option (α × α) :=
  match l with
  | [] => none
  | x0 :: _ =>
    if srange (sampled_minmax lt l x0).1 (sampled_minmax lt l x0).2 > l.length then
      none
    else
      if srange (minmax_fold lt l x0 (List.range l.length) (sampled_minmax lt l x0)).1
            (minmax_fold lt l x0 (List.range l.length) (sampled_minmax lt l x0)).2 ≤
          l.length * 2 then
        some ((minmax_fold lt l x0 (List.range l.length) (sampled_minmax lt l x0)).1,
          (minmax_fold lt l x0 (List.range l.length) (sampled_minmax lt l x0)).2)
      else none

/-- Comparison `operator<` on `int32_t` values (stored as `Int`), decided
by cases on sign: it computes exactly `a < b`. -/
def intLtB : Int → Int → Bool
  | .ofNat m, .ofNat n => m.blt n
  | .negSucc _, .ofNat _ => true
  | .ofNat _, .negSucc _ => false
  | .negSucc m, .negSucc n => n.blt m

/-- Lines 700-734, `detect_dense_range_for_keys`: the caller's keys are
stored into `int32_t` variables (for a `uint32_t`-returning key function
this is the two's-complement conversion `ofBits32`); ranges are computed
exactly in `int64_t` (no overflow is possible for 32-bit keys).  `ks` is
the list of stored `int32_t` keys.  NOTE the sample-stage threshold here
is `2n` (line 715: `range_est > n * 2`), not the `n` of the primitive
detector (line 341). -/
def detect_dense_range_keys (ks : List Int) : Option (Int × Int) :=
  match ks with
  | [] => none
  | k0 :: _ =>
    if (sampled_minmax intLtB ks k0).2 - (sampled_minmax intLtB ks k0).1 + 1 >
        (ks.length : Int) * 2 then
      none
    else
      if (minmax_fold intLtB ks k0 (List.range ks.length) (sampled_minmax intLtB ks k0)).2 -
            (minmax_fold intLtB ks k0 (List.range ks.length) (sampled_minmax intLtB ks k0)).1 +
            1 ≤ (ks.length : Int) * 2 then
        some ((minmax_fold intLtB ks k0 (List.range ks.length) (sampled_minmax intLtB ks k0)).1,
          (minmax_fold intLtB ks k0 (List.range ks.length) (sampled_minmax intLtB ks k0)).2)
      else none

/-- A `uint64_t` input containing both `0` and `2^64 - 1`, so that its
exact range `max - min + 1` wraps to `0`. -/
def c4_input : List Nat := [1, 0, 2 ^ 64 - 1, 1]

/-! ## Tier 4: LSD radix sort (tieredsort.hpp lines 116-216, 604-633)

One pass (`radix_pass`) is the count / exclusive-prefix-sum / backwards
stable placement of the source; `radix_loop` alternates the `arr`/`temp`
roles exactly as the `src == arr.data()` flag flips in the source. -/

/-- Line 135 / 143: the byte of `x` at bit offset `sh`, `(x >> shift) & 0xFF`. -/

def digit (sh x : Nat) : Nat := (x >>> sh) &&& 0xFF

/-- Lines 132-136: zero `count[256]`, then `count[(src[i] >> shift) & 0xFF]++`
for `i = 0 .. n-1`. -/
def radix_count (sh : Nat) (l : List Nat) : Nat → Nat :=
  l.foldl (fun c x => Function.update c (digit sh x) (c (digit sh x) + 1)) (fun _ => 0)

/-- Lines 138-140 (also 256-258, 617-619, 682-684): the prefix-sum loop
`for (i = 1; i < range; i++) count[i] += count[i-1]`. -/
def prefix_sum_loop (range : Nat) (c : Nat → Nat) : Nat → Nat :=
  (List.range' 1 (range - 1)).foldl (fun c i => Function.update c i (c i + c (i - 1))) c

/-- Lines 142-144: the backwards placement loop
`for (size_t i = n; i-- > 0;) dst[--count[(src[i] >> shift) & 0xFF]] = src[i];`
processing the last element first; the state is the pair
`(count, dst)`. -/
def radix_place (sh : Nat) (l : List Nat) (c : Nat → Nat) (d : Nat → Nat) :
    (Nat → Nat) × (Nat → Nat) :=
  l.foldr (fun x st =>
    (Function.update st.1 (digit sh x) (st.1 (digit sh x) - 1),
     Function.update st.2 (st.1 (digit sh x) - 1) x)) (c, d)

/-- One full radix pass at shift `sh`: histogram, prefix sums, backwards
placement over the destination buffer `dst0`, whose previous contents are
the unwritten slots (every slot below `n` is in fact written; see
`radix_pass_eq_buckets`).  The result is the destination buffer read back
as a list of length `n`. -/
def radix_pass (sh : Nat) (l : List Nat) (dst0 : List Nat) : List Nat :=
  (List.range l.length).map
    (radix_place sh l (prefix_sum_loop 256 (radix_count sh l)) (fun i => dst0.getD i 0)).2

/-- The shift loop of lines 131-147 / 182-198 / 610-627, with
`std::swap(src, dst)` after every pass.  The state is
`(src contents, dst contents, src == arr)`; the Boolean tracks which
physical buffer the current source is, deciding the final copy-back
(lines 150-152 / 201-203 / 630-632). -/
def radix_loop (shifts : List Nat) (st : List Nat × List Nat × Bool) :
    List Nat × List Nat × Bool :=
  shifts.foldl (fun st sh => (radix_pass sh st.1 st.2.1, st.1, !st.2.2)) st

/-- The four shifts of `radix_sort_32` (line 131: `shift < 32; shift += 8`). -/
def shifts32 : List Nat := [0, 8, 16, 24]

/-- The eight shifts of `radix_sort_64` / `radix_sort_64_stable`. -/
def shifts64 : List Nat := [0, 8, 16, 24, 32, 40, 48, 56]

/-- Lines 117-165, `radix_sort_32<float>`: encode every element through the
bit codec, run the four passes, copy back to `arr` if the final source is
not `arr` (content-wise the result is the final source either way; theorem
`c9_radix_even_passes_end_in_arr` shows the branch is never taken), then
decode in place. -/
def radix_sort_32_f32 (l temp : List Nat) : List Nat :=
  ((radix_loop shifts32 (l.map to_unsigned_f32, temp, true)).1).map from_unsigned_f32

/-- Lines 168-216, `radix_sort_64<double>`. -/
def radix_sort_64_f64 (l temp : List Nat) : List Nat :=
  ((radix_loop shifts64 (l.map to_unsigned_f64, temp, true)).1).map from_unsigned_f64

/-- Lines 168-216, `radix_sort_64<uint64_t>`: `to_unsigned` is the identity
and there is no decode step. -/
def radix_sort_64_u64 (l temp : List Nat) : List Nat :=
  (radix_loop shifts64 (l.map to_unsigned_u64, temp, true)).1

/-- Lines 604-633, `radix_sort_64_stable` on `(key << 32 | index)` words:
the same eight passes on already-unsigned 64-bit data. -/
def radix_sort_64_stable (l temp : List Nat) : List Nat :=
  (radix_loop shifts64 (l, temp, true)).1

/-! ## Tier 3: counting sort (lines 222-268) and the dispatch engine
(lines 365-418, 493-548) at `T = uint64_t`

`vec_histo` is `none` exactly when `count[arr[i] - min]` indexes past the
end of the `std::vector` — the undefined behaviour the out-of-bounds
claims are about.  `sortFallback` models `std::sort`/`std::stable_sort`
(external library code) as a stable insertion sort. -/

/-- `uint64_t` subtraction (wraps modulo `2^64`). -/

def sub_u64 (a b : Nat) : Nat := (a + 2 ^ 64 - b) % 2 ^ 64

/-- `uint64_t` addition (wraps modulo `2^64`). -/
def add_u64 (a b : Nat) : Nat := (a + b) % 2 ^ 64

/-- The histogram-filling loop over `std::vector<size_t> count(range, 0)`
(lines 230-232 and analogues): `count[idxOf(arr[i])]++`.  An index at or
beyond `range` is an out-of-bounds `std::vector` access — undefined
behaviour in the source — modelled as `none`. -/
def vec_histo (idxOf : α → Nat) (range : Nat) (l : List α) : Option (Nat → Nat) :=
  l.foldl (fun oc x => oc.bind fun c =>
      if idxOf x < range then some (Function.update c (idxOf x) (c (idxOf x) + 1)) else none)
    (some fun _ => 0)

/-- Lines 223-240, unstable `counting_sort<T>` at `T = uint64_t`:
`range = (size_t)(max_val - min_val + 1)` in wrapping unsigned arithmetic,
histogram over `arr[i] - min_val`, then regenerate the array by walking
the buckets in ascending order, emitting `count[i]` copies of
`(T)i + min_val`. -/
def counting_sort_u64 (l : List Nat) (min_val max_val : Nat) : Option (List Nat) :=
  (vec_histo (fun x => sub_u64 x min_val) (add_u64 (sub_u64 max_val min_val) 1) l).map
    fun c => (List.range (add_u64 (sub_u64 max_val min_val) 1)).flatMap
      fun i => List.replicate (c i) (add_u64 i min_val)

/-- Modelled from the spec: the external small-array comparison fallback
(`std::sort` / `std::stable_sort`, §1 "out of scope … specified only
through the interface it must satisfy": sort a short contiguous range in
place under the comparison; the stable variant preserves the relative
order of equivalent elements).  Modelled as a stable insertion sort on the
strict comparison `lt`: an element is inserted before the first resident
`y` that does not satisfy `lt y x`. -/
def insertCmp (lt : α → α → Bool) (x : α) : List α → List α
  | [] => [x]
  | y :: ys => if lt y x then y :: insertCmp lt x ys else x :: y :: ys

/-- Modelled from the spec: see `insertCmp`. -/
def sortFallback (lt : α → α → Bool) (l : List α) : List α := l.foldr (insertCmp lt) []

/-- Lines 366-394, `tieredsort_impl` for integral `T`, at `T = uint64_t`:
tier 1 small arrays (`std::sort`), tier 2 pattern detection (`std::sort`),
tier 3 dense range (counting sort), tier 4 radix sort. -/
def tieredsort_impl_u64 (l temp : List Nat) : Option (List Nat) :=
  if l.length < 256 then some (sortFallback Nat.blt l)
  else if pattern_ok Nat.ble l then some (sortFallback Nat.blt l)
  else match detect_dense_range Nat.blt safe_range_u64 l with
    | some (mn, mx) => counting_sort_u64 l mn mx
    | none => some (radix_sort_64_u64 l temp)

/-- Lines 493-510, the public `sort(first, last)` entry at `uint64_t`:
return unchanged when `n ≤ 1`, otherwise allocate a zero-initialised
internal scratch (`std::vector<T> temp(n)`) and call the impl. -/
def sort_u64 (l : List Nat) : Option (List Nat) :=
  if l.length ≤ 1 then some l
  else tieredsort_impl_u64 l (List.replicate l.length 0)

/-- The length-256 `uint64_t` input `[1, 0, 2^64 - 1, 1, 1, …, 1]`: long
enough to pass tier 1, not pattern-monotone, and containing both `0` and
`2^64 - 1` so that the exact range wraps to `0`. -/
def c1_input : List Nat := 1 :: 0 :: (2 ^ 64 - 1) :: List.replicate 253 1

/-! ## Key-based sorting (tieredsort.hpp lines 669-697, 795-837) -/

/-- Lines 669-697, `counting_sort_objects_stable`: `keyI` is the stored
`int32_t` key of a record (`int32_t k = key_func(items[i])`);
`range = (size_t)(max_key - min_key + 1)`; histogram over
`(size_t)(k - min_key)` (an `int` → `size_t` cast, i.e. modulo `2^64`,
with out-of-bounds `std::vector` indexing modelled as `none`); prefix
sums; backwards placement of moved records into `temp`; move back.
`dflt` stands for a default-constructed record in the scratch
`std::vector<T> temp(n)`; every slot below `n` is written before being
read. -/

def counting_sort_objects_stable (keyI : β → Int) (min_key max_key : Int)
    (l : List β) (dflt : β) : Option (List β) :=
  (vec_histo (fun r => toBits64 (keyI r - min_key)) (max_key - min_key + 1).toNat l).map
    fun c0 =>
      (List.range l.length).map fun i =>
        ((l.foldr (fun (x : β) (st : (Nat → Nat) × (Nat → Option β)) =>
            (Function.update st.1 (toBits64 (keyI x - min_key))
                (st.1 (toBits64 (keyI x - min_key)) - 1),
             Function.update st.2 (st.1 (toBits64 (keyI x - min_key)) - 1) (some x)))
          (prefix_sum_loop (max_key - min_key + 1).toNat c0,
            fun _ => (none : Option β))).2 i).getD dflt

/-- Lines 795-837, `sort_by_key`, for a key function returning `uint32_t`
(`KeyType = uint32_t` passes the `static_assert` at lines 800-802).
`keyRaw` gives the raw `uint32_t` key value.  Tiers 1, 2 and 4 compare
keys with the raw `uint32_t` `operator<` / `operator<=` (the comparator
lambda at line 811 and the `auto` keys of `is_pattern_sorted_for_keys`),
while tier 3 stores the keys into `int32_t` variables
(`detect_dense_range_for_keys` lines 703-711, `counting_sort_objects_stable`
line 677), i.e. works on their two's-complement readings `ofBits32`.
The key function is pure, so the stored-key list is precomputed. -/
def sort_by_key_u32 (keyRaw : β → Nat) (dflt : β) (l : List β) : Option (List β) :=
  if l.length ≤ 1 then some l
  else if l.length < 256 then
    some (sortFallback (fun a b => Nat.blt (keyRaw a) (keyRaw b)) l)
  else if pattern_ok (fun a b => Nat.ble (keyRaw a) (keyRaw b)) l then
    some (sortFallback (fun a b => Nat.blt (keyRaw a) (keyRaw b)) l)
  else match detect_dense_range_keys (l.map fun r => ofBits32 (keyRaw r)) with
    | some (mn, mx) => counting_sort_objects_stable (fun r => ofBits32 (keyRaw r)) mn mx l dflt
    | none => some (sortFallback (fun a b => Nat.blt (keyRaw a) (keyRaw b)) l)

/-- 256 records `(key, original_index)` with `uint32_t` keys
`[0xFFFFFFFF, 0, 0xFFFFFFFF, 5, 4, 5, 6, …, 255]`: not key-pattern-monotone,
and dense in `int32_t` space (stored keys `[-1, 0, -1, 5, 4, …, 255]`,
range 257 ≤ 512), so the dispatch reaches the counting tier. -/
def c3_input : List (Nat × Nat) :=
  (4294967295, 0) :: (0, 1) :: (4294967295, 2) :: (5, 3) ::
    (List.range 252).map (fun i => (i + 4, i + 4))

/-! ## The order invariant of the radix passes

`lowLe k` compares the low `k` bits; after the pass on shift `sh`, the
data is pairwise `lowLe (sh + 8)`-sorted. -/

/-- The ordering "sorted by the low `k` bits". -/

def lowLe (k : Nat) (x y : Nat) : Prop := x % 2 ^ k ≤ y % 2 ^ k

/-! ## The floating-point dispatch (tieredsort.hpp lines 396-418, 455-477,
493-595) -/

/-- `operator<` on `float`, via the IEEE comparison key (so `-0.0` and
`+0.0` compare equal).  The source's NaN comparisons (always false) are
not modelled; no claim below involves NaN inputs. -/

def f32ltB (a b : Nat) : Bool := intLtB (f32cmpKey a) (f32cmpKey b)

/-- `operator<=` on `float`. -/
def f32leB (a b : Nat) : Bool := !intLtB (f32cmpKey b) (f32cmpKey a)

/-- `operator<` on `double`. -/
def f64ltB (a b : Nat) : Bool := intLtB (f64cmpKey a) (f64cmpKey b)

/-- `operator<=` on `double`. -/
def f64leB (a b : Nat) : Bool := !intLtB (f64cmpKey b) (f64cmpKey a)

/-- Lines 397-418, `tieredsort_impl` for floating-point `T`, at
`T = float`: tier 1 small arrays (`std::sort`), tier 2 pattern detection
(`std::sort`), then radix — no counting tier for floats. -/
def tieredsort_impl_f32 (l temp : List Nat) : List Nat :=
  if l.length < 256 then sortFallback f32ltB l
  else if pattern_ok f32leB l then sortFallback f32ltB l
  else radix_sort_32_f32 l temp

/-- Lines 457-477, `tieredsort_stable_impl` for floating-point `T`, at
`T = float` (`std::stable_sort` fallback — same external model). -/
def tieredsort_stable_impl_f32 (l temp : List Nat) : List Nat :=
  if l.length < 256 then sortFallback f32ltB l
  else if pattern_ok f32leB l then sortFallback f32ltB l
  else radix_sort_32_f32 l temp

/-- Lines 397-418 at `T = double`. -/
def tieredsort_impl_f64 (l temp : List Nat) : List Nat :=
  if l.length < 256 then sortFallback f64ltB l
  else if pattern_ok f64leB l then sortFallback f64ltB l
  else radix_sort_64_f64 l temp

/-- Lines 457-477 at `T = double`. -/
def tieredsort_stable_impl_f64 (l temp : List Nat) : List Nat :=
  if l.length < 256 then sortFallback f64ltB l
  else if pattern_ok f64leB l then sortFallback f64ltB l
  else radix_sort_64_f64 l temp

/-- Lines 493-510, the public `sort` entry at `float`. -/
def sort_f32 (l : List Nat) : List Nat :=
  if l.length ≤ 1 then l else tieredsort_impl_f32 l (List.replicate l.length 0)

/-- Lines 551-568, the public `stable_sort` entry at `float`. -/
def stable_sort_f32 (l : List Nat) : List Nat :=
  if l.length ≤ 1 then l else tieredsort_stable_impl_f32 l (List.replicate l.length 0)

/-- The length-256 float input (as bit patterns)
`[-0.0, 5.0e-45, +0.0, 1.0e-44, 8.4e-45, …]`: not pattern-monotone, and
containing both zeros. -/
def c6_winput : List Nat := 0x80000000 :: 5 :: 0 :: 7 :: List.replicate 252 6

/-! ## Theorems

### Arithmetic characterization of the bit operations -/

/-- Splitting XOR at a bit boundary: if the low parts are below `2^w`,
XOR acts independently on the high and low parts. -/

theorem xor_split {w a b c d : Nat} (hb : b < 2 ^ w) (hd : d < 2 ^ w) :
    (2 ^ w * a + b) ^^^ (2 ^ w * c + d) = 2 ^ w * (a ^^^ c) + (b ^^^ d) := by
  apply Nat.eq_of_testBit_eq
  intro j
  rw [Nat.testBit_xor, Nat.testBit_mul_pow_two_add _ hb, Nat.testBit_mul_pow_two_add _ hd,
    Nat.testBit_mul_pow_two_add _ (Nat.xor_lt_two_pow hb hd)]
  by_cases hj : j < w <;> simp [hj, Nat.testBit_xor]

/-- XOR with a single high bit, low case: sets the bit. -/
theorem xor_two_pow_of_lt {w u : Nat} (h : u < 2 ^ w) : u ^^^ 2 ^ w = u + 2 ^ w := by
  have hx := xor_split (w := w) (a := 0) (b := u) (c := 1) (d := 0) h (Nat.two_pow_pos w)
  simp [Nat.mul_comm] at hx
  omega

/-- XOR with a single high bit, high case: clears the bit. -/
theorem xor_two_pow_of_ge {w u : Nat} (h1 : 2 ^ w ≤ u) (h2 : u < 2 ^ (w + 1)) :
    u ^^^ 2 ^ w = u - 2 ^ w := by
  have hu : u = 2 ^ w * 1 + (u - 2 ^ w) := by omega
  have hlt : u - 2 ^ w < 2 ^ w := by have := Nat.pow_succ 2 w; omega
  calc u ^^^ 2 ^ w = (2 ^ w * 1 + (u - 2 ^ w)) ^^^ (2 ^ w * 1 + 0) := by
        rw [← hu]; norm_num
    _ = 2 ^ w * (1 ^^^ 1) + ((u - 2 ^ w) ^^^ 0) := xor_split hlt (Nat.two_pow_pos w)
    _ = u - 2 ^ w := by simp

/-- XOR with the all-ones word is complement: for `u < 2^w`,
`u ^^^ (2^w - 1) = 2^w - 1 - u`. -/
theorem xor_all_ones {w u : Nat} (h : u < 2 ^ w) : u ^^^ (2 ^ w - 1) = 2 ^ w - 1 - u := by
  induction w generalizing u with
  | zero =>
    have hu0 : u = 0 := by simp at h; omega
    subst hu0; rfl
  | succ w ih =>
    have hpos := Nat.two_pow_pos w
    have hps := Nat.pow_succ 2 w
    have h1 : 2 ^ (w + 1) - 1 = 2 ^ w * 1 + (2 ^ w - 1) := by omega
    rcases Nat.lt_or_ge u (2 ^ w) with hu | hu
    · have h2 : u = 2 ^ w * 0 + u := by omega
      rw [h2, h1, xor_split hu (by omega)]
      have hx := ih hu
      simp only [Nat.zero_xor] at *
      omega
    · have hlt : u - 2 ^ w < 2 ^ w := by omega
      have h2 : u = 2 ^ w * 1 + (u - 2 ^ w) := by omega
      rw [h2, h1, xor_split hlt (by omega)]
      have hx := ih hlt
      simp only [Nat.xor_self] at *
      omega

/-- Testing the top bit of a `w+1`-bit word with AND. -/
theorem and_top_bit {w u : Nat} (h : u < 2 ^ (w + 1)) :
    u &&& 2 ^ w ≠ 0 ↔ 2 ^ w ≤ u := by
  rw [Nat.and_two_pow, Nat.testBit_to_div_mod]
  have hps : 2 ^ (w + 1) = 2 * 2 ^ w := by ring
  have hpos : 0 < 2 ^ w := Nat.two_pow_pos w
  have hdiv : u / 2 ^ w < 2 := Nat.div_lt_of_lt_mul (by omega)
  constructor
  · intro hne
    by_contra hlt
    push_neg at hlt
    have h0 : u / 2 ^ w = 0 := Nat.div_eq_of_lt hlt
    simp [h0] at hne
  · intro hle
    have hd1 : 1 ≤ u / 2 ^ w := (Nat.le_div_iff_mul_le hpos).mpr (by omega)
    have hd : u / 2 ^ w = 1 := by omega
    simp [hd]

/-! ### Closed forms of the codec maps -/

theorem to_unsigned_i32_eq {v : Int} (h1 : -(2 ^ 31) ≤ v) (h2 : v < 2 ^ 31) :
    to_unsigned_i32 v = (v + 2 ^ 31).toNat := by
  unfold to_unsigned_i32 toBits32
  have hM : ((2 ^ 32 : Nat) : Int) = 4294967296 := by norm_num
  rw [hM]
  rcases le_or_lt 0 v with hv | hv
  · have hm : v % 4294967296 = v := by omega
    rw [hm]
    have hlt : v.toNat < 2 ^ 31 := by norm_num; omega
    have hx := xor_two_pow_of_lt (w := 31) hlt
    norm_num at hx ⊢
    omega
  · have hm : v % 4294967296 = v + 4294967296 := by omega
    rw [hm]
    have hge : (2 ^ 31 : Nat) ≤ (v + 4294967296).toNat := by norm_num; omega
    have hx := xor_two_pow_of_ge (w := 31) hge (by norm_num; omega)
    norm_num at hx ⊢
    omega

theorem to_unsigned_i64_eq {v : Int} (h1 : -(2 ^ 63) ≤ v) (h2 : v < 2 ^ 63) :
    to_unsigned_i64 v = (v + 2 ^ 63).toNat := by
  unfold to_unsigned_i64 toBits64
  have hM : ((2 ^ 64 : Nat) : Int) = 18446744073709551616 := by norm_num
  rw [hM]
  rcases le_or_lt 0 v with hv | hv
  · have hm : v % 18446744073709551616 = v := by omega
    rw [hm]
    have hlt : v.toNat < 2 ^ 63 := by norm_num; omega
    have hx := xor_two_pow_of_lt (w := 63) hlt
    norm_num at hx ⊢
    omega
  · have hm : v % 18446744073709551616 = v + 18446744073709551616 := by omega
    rw [hm]
    have hge : (2 ^ 63 : Nat) ≤ (v + 18446744073709551616).toNat := by norm_num; omega
    have hx := xor_two_pow_of_ge (w := 63) hge (by norm_num; omega)
    norm_num at hx ⊢
    omega

theorem to_unsigned_f32_eq {bits : Nat} (h : bits < 2 ^ 32) :
    to_unsigned_f32 bits =
      if 2 ^ 31 ≤ bits then 2 ^ 32 - 1 - bits else bits + 2 ^ 31 := by
  unfold to_unsigned_f32
  rw [show (0x80000000 : Nat) = 2 ^ 31 by norm_num]
  rw [show (0xFFFFFFFF : Nat) = 2 ^ 32 - 1 by norm_num]
  by_cases hs : 2 ^ 31 ≤ bits
  · rw [if_pos ((and_top_bit (w := 31) (by norm_num at h ⊢; omega)).mpr hs), if_pos hs]
    exact xor_all_ones h
  · rw [if_neg (by
      intro hc
      exact hs ((and_top_bit (w := 31) (by norm_num at h ⊢; omega)).mp hc)), if_neg hs]
    exact xor_two_pow_of_lt (Nat.lt_of_not_le hs)

theorem to_unsigned_f64_eq {bits : Nat} (h : bits < 2 ^ 64) :
    to_unsigned_f64 bits =
      if 2 ^ 63 ≤ bits then 2 ^ 64 - 1 - bits else bits + 2 ^ 63 := by
  unfold to_unsigned_f64
  rw [show (0x8000000000000000 : Nat) = 2 ^ 63 by norm_num]
  rw [show (0xFFFFFFFFFFFFFFFF : Nat) = 2 ^ 64 - 1 by norm_num]
  by_cases hs : 2 ^ 63 ≤ bits
  · rw [if_pos ((and_top_bit (w := 63) (by norm_num at h ⊢; omega)).mpr hs), if_pos hs]
    exact xor_all_ones h
  · rw [if_neg (by
      intro hc
      exact hs ((and_top_bit (w := 63) (by norm_num at h ⊢; omega)).mp hc)), if_neg hs]
    exact xor_two_pow_of_lt (Nat.lt_of_not_le hs)

theorem from_unsigned_f32_eq {v : Nat} (h : v < 2 ^ 32) :
    from_unsigned_f32 v =
      if 2 ^ 31 ≤ v then v - 2 ^ 31 else 2 ^ 32 - 1 - v := by
  unfold from_unsigned_f32
  rw [show (0x80000000 : Nat) = 2 ^ 31 by norm_num]
  rw [show (0xFFFFFFFF : Nat) = 2 ^ 32 - 1 by norm_num]
  by_cases hs : 2 ^ 31 ≤ v
  · rw [if_pos ((and_top_bit (w := 31) (by norm_num at h ⊢; omega)).mpr hs), if_pos hs]
    exact xor_two_pow_of_ge hs (by norm_num at h ⊢; omega)
  · rw [if_neg (by
      intro hc
      exact hs ((and_top_bit (w := 31) (by norm_num at h ⊢; omega)).mp hc)), if_neg hs]
    exact xor_all_ones h

theorem from_unsigned_f64_eq {v : Nat} (h : v < 2 ^ 64) :
    from_unsigned_f64 v =
      if 2 ^ 63 ≤ v then v - 2 ^ 63 else 2 ^ 64 - 1 - v := by
  unfold from_unsigned_f64
  rw [show (0x8000000000000000 : Nat) = 2 ^ 63 by norm_num]
  rw [show (0xFFFFFFFFFFFFFFFF : Nat) = 2 ^ 64 - 1 by norm_num]
  by_cases hs : 2 ^ 63 ≤ v
  · rw [if_pos ((and_top_bit (w := 63) (by norm_num at h ⊢; omega)).mpr hs), if_pos hs]
    exact xor_two_pow_of_ge hs (by norm_num at h ⊢; omega)
  · rw [if_neg (by
      intro hc
      exact hs ((and_top_bit (w := 63) (by norm_num at h ⊢; omega)).mp hc)), if_neg hs]
    exact xor_all_ones h

theorem roundtrip_i32 {a : Int} (h1 : -(2 ^ 31) ≤ a) (h2 : a < 2 ^ 31) :
    from_unsigned_i32 (to_unsigned_i32 a) = a := by
  rw [to_unsigned_i32_eq h1 h2]
  unfold from_unsigned_i32 ofBits32
  rcases le_or_lt 0 a with hv | hv
  · have hge : (2 ^ 31 : Nat) ≤ (a + 2 ^ 31).toNat := by norm_num; omega
    have hx := xor_two_pow_of_ge (w := 31) hge (by norm_num; omega)
    norm_num at hx ⊢
    rw [hx]
    split <;> omega
  · have hlt : (a + 2 ^ 31).toNat < 2 ^ 31 := by norm_num; omega
    have hx := xor_two_pow_of_lt (w := 31) hlt
    norm_num at hx ⊢
    rw [hx]
    split <;> omega

theorem monotone_i32 {a b : Int} (ha1 : -(2 ^ 31) ≤ a) (ha2 : a < 2 ^ 31)
    (hb1 : -(2 ^ 31) ≤ b) (hb2 : b < 2 ^ 31) :
    to_unsigned_i32 a ≤ to_unsigned_i32 b ↔ a ≤ b := by
  rw [to_unsigned_i32_eq ha1 ha2, to_unsigned_i32_eq hb1 hb2]
  omega

theorem roundtrip_i64 {a : Int} (h1 : -(2 ^ 63) ≤ a) (h2 : a < 2 ^ 63) :
    from_unsigned_i64 (to_unsigned_i64 a) = a := by
  rw [to_unsigned_i64_eq h1 h2]
  unfold from_unsigned_i64 ofBits64
  rcases le_or_lt 0 a with hv | hv
  · have hge : (2 ^ 63 : Nat) ≤ (a + 2 ^ 63).toNat := by norm_num; omega
    have hx := xor_two_pow_of_ge (w := 63) hge (by norm_num; omega)
    norm_num at hx ⊢
    rw [hx]
    split <;> omega
  · have hlt : (a + 2 ^ 63).toNat < 2 ^ 63 := by norm_num; omega
    have hx := xor_two_pow_of_lt (w := 63) hlt
    norm_num at hx ⊢
    rw [hx]
    split <;> omega

theorem monotone_i64 {a b : Int} (ha1 : -(2 ^ 63) ≤ a) (ha2 : a < 2 ^ 63)
    (hb1 : -(2 ^ 63) ≤ b) (hb2 : b < 2 ^ 63) :
    to_unsigned_i64 a ≤ to_unsigned_i64 b ↔ a ≤ b := by
  rw [to_unsigned_i64_eq ha1 ha2, to_unsigned_i64_eq hb1 hb2]
  omega

theorem roundtrip_f32 {bits : Nat} (h : bits < 2 ^ 32) :
    from_unsigned_f32 (to_unsigned_f32 bits) = bits := by
  rw [to_unsigned_f32_eq h]
  by_cases hs : 2 ^ 31 ≤ bits
  · rw [if_pos hs, from_unsigned_f32_eq (by norm_num at h ⊢; omega)]
    rw [if_neg (by norm_num at h hs ⊢; omega)]
    norm_num at h hs ⊢
    omega
  · rw [if_neg hs, from_unsigned_f32_eq (by norm_num at h hs ⊢; omega)]
    rw [if_pos (by omega)]
    omega

theorem monotone_f32 {a b : Nat} (ha : a < 2 ^ 32) (hb : b < 2 ^ 32) :
    to_unsigned_f32 a ≤ to_unsigned_f32 b ↔ f32key a ≤ f32key b := by
  rw [to_unsigned_f32_eq ha, to_unsigned_f32_eq hb]
  unfold f32key
  by_cases hsa : 2 ^ 31 ≤ a <;> by_cases hsb : 2 ^ 31 ≤ b <;>
    simp only [if_pos, if_neg, hsa, hsb, ite_true, ite_false, if_true, if_false] <;>
    norm_num at * <;> omega

theorem roundtrip_f64 {bits : Nat} (h : bits < 2 ^ 64) :
    from_unsigned_f64 (to_unsigned_f64 bits) = bits := by
  rw [to_unsigned_f64_eq h]
  by_cases hs : 2 ^ 63 ≤ bits
  · rw [if_pos hs, from_unsigned_f64_eq (by norm_num at h ⊢; omega)]
    rw [if_neg (by norm_num at h hs ⊢; omega)]
    norm_num at h hs ⊢
    omega
  · rw [if_neg hs, from_unsigned_f64_eq (by norm_num at h hs ⊢; omega)]
    rw [if_pos (by omega)]
    omega

theorem monotone_f64 {a b : Nat} (ha : a < 2 ^ 64) (hb : b < 2 ^ 64) :
    to_unsigned_f64 a ≤ to_unsigned_f64 b ↔ f64key a ≤ f64key b := by
  rw [to_unsigned_f64_eq ha, to_unsigned_f64_eq hb]
  unfold f64key
  by_cases hsa : 2 ^ 63 ≤ a <;> by_cases hsb : 2 ^ 63 ≤ b <;>
    simp only [if_pos, if_neg, hsa, hsb, ite_true, ite_false, if_true, if_false] <;>
    norm_num at * <;> omega

/-- **C2.** For every supported element type E and every finite value `x` of
E, `decode (encode x) = x`; and for every pair of finite values `a`, `b`,
`encode a ≤ encode b` under unsigned comparison iff `a ≤ b` under E's
natural order.  The integer types use their usual order on `Int`/`Nat`; the
float types use the spec's natural total order (§1, §7: signed zero treated
distinctly, `-0.0` strictly below `+0.0`), which on finite bit patterns is
the sign-magnitude key `f32key`/`f64key`.  The codec is the identity for
unsigned integers, the sign-bit XOR for signed integers, and the
conditional bitwise-NOT / sign-bit-flip map for floats, exactly as in
`tieredsort.hpp` lines 77-114. -/
theorem c2_codec_roundtrip_and_monotone :
    (∀ a b : Int, -(2 ^ 31) ≤ a → a < 2 ^ 31 → -(2 ^ 31) ≤ b → b < 2 ^ 31 →
      from_unsigned_i32 (to_unsigned_i32 a) = a ∧
      (to_unsigned_i32 a ≤ to_unsigned_i32 b ↔ a ≤ b)) ∧
    (∀ a b : Nat, a < 2 ^ 32 → b < 2 ^ 32 →
      from_unsigned_u32 (to_unsigned_u32 a) = a ∧
      (to_unsigned_u32 a ≤ to_unsigned_u32 b ↔ a ≤ b)) ∧
    (∀ a b : Int, -(2 ^ 63) ≤ a → a < 2 ^ 63 → -(2 ^ 63) ≤ b → b < 2 ^ 63 →
      from_unsigned_i64 (to_unsigned_i64 a) = a ∧
      (to_unsigned_i64 a ≤ to_unsigned_i64 b ↔ a ≤ b)) ∧
    (∀ a b : Nat, a < 2 ^ 64 → b < 2 ^ 64 →
      from_unsigned_u64 (to_unsigned_u64 a) = a ∧
      (to_unsigned_u64 a ≤ to_unsigned_u64 b ↔ a ≤ b)) ∧
    (∀ a b : Nat, a < 2 ^ 32 → b < 2 ^ 32 → f32finite a → f32finite b →
      from_unsigned_f32 (to_unsigned_f32 a) = a ∧
      (to_unsigned_f32 a ≤ to_unsigned_f32 b ↔ f32key a ≤ f32key b)) ∧
    (∀ a b : Nat, a < 2 ^ 64 → b < 2 ^ 64 → f64finite a → f64finite b →
      from_unsigned_f64 (to_unsigned_f64 a) = a ∧
      (to_unsigned_f64 a ≤ to_unsigned_f64 b ↔ f64key a ≤ f64key b)) := by
  refine ⟨?_, ?_, ?_, ?_, ?_, ?_⟩
  · exact fun a b ha1 ha2 hb1 hb2 =>
      ⟨roundtrip_i32 ha1 ha2, monotone_i32 ha1 ha2 hb1 hb2⟩
  · exact fun a b _ _ => ⟨rfl, Iff.rfl⟩
  · exact fun a b ha1 ha2 hb1 hb2 =>
      ⟨roundtrip_i64 ha1 ha2, monotone_i64 ha1 ha2 hb1 hb2⟩
  · exact fun a b _ _ => ⟨rfl, Iff.rfl⟩
  · exact fun a b ha hb _ _ => ⟨roundtrip_f32 ha, monotone_f32 ha hb⟩
  · exact fun a b ha hb _ _ => ⟨roundtrip_f64 ha, monotone_f64 ha hb⟩

/-- Witness for `c2_codec_roundtrip_and_monotone`: each conjunct applied at
concrete values (for the floats: the bit patterns of `-1.5f` = `0xBFC00000`
and `+0.0f`, and of `-2.0` = `0xC000000000000000` and `+1.0` =
`0x3FF0000000000000`). -/
theorem c2_codec_roundtrip_and_monotone_witness :
    (from_unsigned_i32 (to_unsigned_i32 (-5)) = -5 ∧
      (to_unsigned_i32 (-5) ≤ to_unsigned_i32 7 ↔ (-5 : Int) ≤ 7)) ∧
    (from_unsigned_u32 (to_unsigned_u32 3) = 3 ∧
      (to_unsigned_u32 3 ≤ to_unsigned_u32 9 ↔ (3 : Nat) ≤ 9)) ∧
    (from_unsigned_i64 (to_unsigned_i64 (-11)) = -11 ∧
      (to_unsigned_i64 (-11) ≤ to_unsigned_i64 2 ↔ (-11 : Int) ≤ 2)) ∧
    (from_unsigned_u64 (to_unsigned_u64 6) = 6 ∧
      (to_unsigned_u64 6 ≤ to_unsigned_u64 8 ↔ (6 : Nat) ≤ 8)) ∧
    (from_unsigned_f32 (to_unsigned_f32 0xBFC00000) = 0xBFC00000 ∧
      (to_unsigned_f32 0xBFC00000 ≤ to_unsigned_f32 0 ↔
        f32key 0xBFC00000 ≤ f32key 0)) ∧
    (from_unsigned_f64 (to_unsigned_f64 0xC000000000000000) = 0xC000000000000000 ∧
      (to_unsigned_f64 0xC000000000000000 ≤ to_unsigned_f64 0x3FF0000000000000 ↔
        f64key 0xC000000000000000 ≤ f64key 0x3FF0000000000000)) :=
  ⟨c2_codec_roundtrip_and_monotone.1 (-5) 7
      (by norm_num) (by norm_num) (by norm_num) (by norm_num),
    c2_codec_roundtrip_and_monotone.2.1 3 9 (by norm_num) (by norm_num),
    c2_codec_roundtrip_and_monotone.2.2.1 (-11) 2
      (by norm_num) (by norm_num) (by norm_num) (by norm_num),
    c2_codec_roundtrip_and_monotone.2.2.2.1 6 8 (by norm_num) (by norm_num),
    c2_codec_roundtrip_and_monotone.2.2.2.2.1 0xBFC00000 0
      (by norm_num) (by norm_num) (by unfold f32finite; decide) (by unfold f32finite; decide),
    c2_codec_roundtrip_and_monotone.2.2.2.2.2 0xC000000000000000 0x3FF0000000000000
      (by norm_num) (by norm_num) (by unfold f64finite; decide) (by unfold f64finite; decide)⟩

/-- An in-bounds checked read returns the defaulted read, for any default. -/
theorem getElem?_eq_some_getD {l : List α} {i : Nat} (d : α) (h : i < l.length) :
    l[i]? = some (l.getD i d) := by
  rw [List.getElem?_eq_getElem h, List.getD_eq_getElem l d h]

/-- **C7.** For every input of length `n`, the pattern detector returns true
unconditionally when `n < 8`; and when `n ≥ 8` it returns true iff each of
the three four-element windows starting at positions `0`, `n/2 - 1` and
`n - 4` is monotone (all three adjacent comparisons `≤`, or all three `≥`),
where the monotone direction may differ between windows.  Stated for every
comparison `le` and every default `d` (the windows lie in bounds, so `d` is
never read). -/
theorem c7_pattern_detector_characterization (le : α → α → Bool) (d : α) (l : List α) :
    (l.length < 8 → is_pattern_sorted le l = some true) ∧
    (8 ≤ l.length →
      (is_pattern_sorted le l = some true ↔
        (window_mono le d l 0 1 2 3 ∧
          window_mono le d l (l.length / 2 - 1) (l.length / 2) (l.length / 2 + 1)
            (l.length / 2 + 2) ∧
          window_mono le d l (l.length - 4) (l.length - 3) (l.length - 2)
            (l.length - 1)))) := by
  constructor
  · intro h
    unfold is_pattern_sorted
    rw [if_pos h]
  · intro h
    have hn : ¬ l.length < 8 := by omega
    unfold is_pattern_sorted window_mono window_asc window_desc
    rw [if_neg hn]
    rw [getElem?_eq_some_getD d (show 0 < l.length by omega),
      getElem?_eq_some_getD d (show 1 < l.length by omega),
      getElem?_eq_some_getD d (show 2 < l.length by omega),
      getElem?_eq_some_getD d (show 3 < l.length by omega),
      getElem?_eq_some_getD d (show l.length / 2 - 1 < l.length by omega),
      getElem?_eq_some_getD d (show l.length / 2 < l.length by omega),
      getElem?_eq_some_getD d (show l.length / 2 + 1 < l.length by omega),
      getElem?_eq_some_getD d (show l.length / 2 + 2 < l.length by omega),
      getElem?_eq_some_getD d (show l.length - 4 < l.length by omega),
      getElem?_eq_some_getD d (show l.length - 3 < l.length by omega),
      getElem?_eq_some_getD d (show l.length - 2 < l.length by omega),
      getElem?_eq_some_getD d (show l.length - 1 < l.length by omega)]
    simp only [Option.some_bind]
    have hb1 : ∀ a b : Bool, ((!a && !b) = true) → ¬ ((a || b) = true) := by decide
    have hb2 : ∀ a b : Bool, ¬ ((!a && !b) = true) → (a || b) = true := by decide
    split
    · rename_i hc1
      constructor
      · intro hfalse; simp at hfalse
      · rintro ⟨h1, -, -⟩; exact absurd h1 (hb1 _ _ hc1)
    · rename_i hc1
      split
      · rename_i hc2
        constructor
        · intro hfalse; simp at hfalse
        · rintro ⟨-, h2, -⟩; exact absurd h2 (hb1 _ _ hc2)
      · rename_i hc2
        split
        · rename_i hc3
          constructor
          · intro hfalse; simp at hfalse
          · rintro ⟨-, -, h3⟩; exact absurd h3 (hb1 _ _ hc3)
        · rename_i hc3
          constructor
          · intro _; exact ⟨hb2 _ _ hc1, hb2 _ _ hc2, hb2 _ _ hc3⟩
          · intro _; rfl

/-- Witness for `c7_pattern_detector_characterization` at `le = Nat.ble`,
`d = 0`, `l = [0, …, 7]`. -/
theorem c7_pattern_detector_characterization_witness :
    8 ≤ (List.range 8).length ∧
    (is_pattern_sorted Nat.ble (List.range 8) = some true ↔
      (window_mono Nat.ble 0 (List.range 8) 0 1 2 3 ∧
        window_mono Nat.ble 0 (List.range 8) ((List.range 8).length / 2 - 1)
          ((List.range 8).length / 2) ((List.range 8).length / 2 + 1)
          ((List.range 8).length / 2 + 2) ∧
        window_mono Nat.ble 0 (List.range 8) ((List.range 8).length - 4)
          ((List.range 8).length - 3) ((List.range 8).length - 2)
          ((List.range 8).length - 1))) :=
  ⟨by decide, (c7_pattern_detector_characterization Nat.ble 0 (List.range 8)).2 (by decide)⟩

/-- **C8 counterexample.** The claim asserts the three windows are pairwise
disjoint for every `n ≥ 8`; at `n = 8` the midpoint window is
`{3, 4, 5, 6}`, which meets the prefix window `{0, 1, 2, 3}` at index 3
(and the suffix window `{4, 5, 6, 7}` at 4, 5, 6), so the claim is false. -/
theorem c8_counterexample_windows_overlap_at_8 :
    ¬ ((∀ i ∈ pattern_window_head, i ∉ pattern_window_mid 8) ∧
       (∀ i ∈ pattern_window_head, i ∉ pattern_window_tail 8) ∧
       (∀ i ∈ pattern_window_mid 8, i ∉ pattern_window_tail 8)) := by
  decide

/-- **C8 (amended).** For `n ≥ 8`, the three four-element index windows
examined by the pattern detector (prefix `0..3`, midpoint
`n/2 - 1 .. n/2 + 2`, suffix `n - 4 .. n - 1`) are pairwise disjoint if and
only if `n ≥ 13`; for `8 ≤ n ≤ 12` at least two windows intersect. -/
theorem c8_amended_windows_disjoint_iff (n : Nat) (h : 8 ≤ n) :
    ((∀ i ∈ pattern_window_head, i ∉ pattern_window_mid n) ∧
     (∀ i ∈ pattern_window_head, i ∉ pattern_window_tail n) ∧
     (∀ i ∈ pattern_window_mid n, i ∉ pattern_window_tail n)) ↔ 13 ≤ n := by
  constructor
  · intro hlhs
    by_contra h13
    push_neg at h13
    interval_cases n <;> exact absurd hlhs (by decide)
  · intro h13
    refine ⟨?_, ?_, ?_⟩ <;> intro i hi <;>
      simp only [pattern_window_head, pattern_window_mid, pattern_window_tail,
        List.mem_cons, List.not_mem_nil, or_false] at hi ⊢ <;>
      omega

/-- Witness for `c8_amended_windows_disjoint_iff` at `n = 13`. -/
theorem c8_amended_windows_disjoint_iff_witness :
    8 ≤ 13 ∧
    (((∀ i ∈ pattern_window_head, i ∉ pattern_window_mid 13) ∧
      (∀ i ∈ pattern_window_head, i ∉ pattern_window_tail 13) ∧
      (∀ i ∈ pattern_window_mid 13, i ∉ pattern_window_tail 13)) ↔ 13 ≤ 13) :=
  ⟨by decide, c8_amended_windows_disjoint_iff 13 (by decide)⟩

/-- **C10.** For every array, the pattern detector accesses only indices
within `[0, n)`: it never fails an (embedded, checked) array read — when
`n < 8` it returns before reading anything — and for `n ≥ 8` every index
in its three windows lies strictly below `n` (including `n = 8` and
`n = 9`).  This covers `is_pattern_sorted`, `is_pattern_sorted_keys` and
`is_pattern_sorted_for_keys`, which are the generic detector at different
comparisons. -/
theorem c10_pattern_detector_in_bounds (le : α → α → Bool) (l : List α) :
    (is_pattern_sorted le l).isSome = true ∧
    (8 ≤ l.length →
      ∀ i ∈ pattern_window_head ++ pattern_window_mid l.length ++
          pattern_window_tail l.length, i < l.length) := by
  constructor
  · unfold is_pattern_sorted
    by_cases h8 : l.length < 8
    · rw [if_pos h8]; rfl
    · rw [if_neg h8]
      rw [List.getElem?_eq_getElem (show 0 < l.length by omega),
        List.getElem?_eq_getElem (show 1 < l.length by omega),
        List.getElem?_eq_getElem (show 2 < l.length by omega),
        List.getElem?_eq_getElem (show 3 < l.length by omega),
        List.getElem?_eq_getElem (show l.length / 2 - 1 < l.length by omega),
        List.getElem?_eq_getElem (show l.length / 2 < l.length by omega),
        List.getElem?_eq_getElem (show l.length / 2 + 1 < l.length by omega),
        List.getElem?_eq_getElem (show l.length / 2 + 2 < l.length by omega),
        List.getElem?_eq_getElem (show l.length - 4 < l.length by omega),
        List.getElem?_eq_getElem (show l.length - 3 < l.length by omega),
        List.getElem?_eq_getElem (show l.length - 2 < l.length by omega),
        List.getElem?_eq_getElem (show l.length - 1 < l.length by omega)]
      simp only [Option.some_bind]
      split
      · rfl
      · split
        · rfl
        · split <;> rfl
  · intro h i hi
    simp only [pattern_window_head, pattern_window_mid, pattern_window_tail,
      List.mem_append, List.mem_cons, List.not_mem_nil, or_false] at hi
    omega

/-- `intLtB` is the strict order on `Int`. -/
theorem intLtB_iff (a b : Int) : intLtB a b = true ↔ a < b := by
  cases a <;> cases b <;> simp [intLtB, Int.negSucc_eq] <;> omega

set_option maxRecDepth 4000 in
/-- **C4.** The claim states that for 64-bit element types whose exact
range `max - min + 1` wraps to `0` (input containing both the minimum and
maximum representable values), `detect_dense_range` returns false.  The
code does the opposite: the wrapped range `0` passes both the sample-stage
test (`0 > n` is false) and the final test (`0 ≤ 2n`), so the detector
*accepts* (`some`), classifying the widest possible input as dense.  Both
the unsigned and the signed 64-bit instances are evaluated on concrete
inputs. -/
theorem c4_detector_accepts_wrapped_range :
    safe_range_u64 0 (2 ^ 64 - 1) = 0 ∧
    detect_dense_range Nat.blt safe_range_u64 c4_input = some (0, 2 ^ 64 - 1) ∧
    safe_range_i64 (-(2 ^ 63)) (2 ^ 63 - 1) = 0 ∧
    detect_dense_range intLtB safe_range_i64
        [(0 : Int), -(2 ^ 63), 2 ^ 63 - 1, 0] =
      some (-(2 ^ 63), 2 ^ 63 - 1) := by
  refine ⟨by decide, by decide, by decide, by decide⟩

/-- **C5 counterexample.** The claim asserts that *both* detectors reject
at the sample stage whenever the sampled estimate `est = max - min + 1`
strictly exceeds `n`.  For the key-based detector this is false: its
sample stage (line 715) tests `est > 2n`, not `est > n`.  For the stored
keys `[0, 2, 4, 6]` (n = 4, stride 1) the sampled estimate is `7 > 4`,
yet the detector does not reject — it even accepts the input. -/
theorem c5_counterexample_key_detector_threshold :
    (sampled_minmax intLtB [0, 2, 4, 6] 0).2 - (sampled_minmax intLtB [0, 2, 4, 6] 0).1 + 1 = 7 ∧
    (([0, 2, 4, 6] : List Int).length : Int) < 7 ∧
    detect_dense_range_keys [0, 2, 4, 6] = some (0, 6) := by
  refine ⟨by decide, by decide, by decide⟩

/-- **C5 (amended).** The primitive-integer detector rejects at the
sample stage whenever the sampled estimate exceeds `n` (line 341,
`range_est > n`); the key-based detector rejects at its sample stage only
when the sampled estimate exceeds `2n` (line 715, `range_est > n * 2`).
In either case rejection means `none` without the full scan. -/
theorem c5_amended_sample_stage_rejection :
    (∀ (α : Type) (lt : α → α → Bool) (srange : α → α → Nat) (x0 : α) (t : List α),
      srange (sampled_minmax lt (x0 :: t) x0).1 (sampled_minmax lt (x0 :: t) x0).2 >
        (x0 :: t).length →
      detect_dense_range lt srange (x0 :: t) = none) ∧
    (∀ (k0 : Int) (t : List Int),
      (sampled_minmax intLtB (k0 :: t) k0).2 - (sampled_minmax intLtB (k0 :: t) k0).1 + 1 >
        ((k0 :: t).length : Int) * 2 →
      detect_dense_range_keys (k0 :: t) = none) := by
  constructor
  · intro α lt srange x0 t h
    simp only [detect_dense_range]
    rw [if_pos h]
  · intro k0 t h
    simp only [detect_dense_range_keys]
    rw [if_pos h]

/-- Witness for `c5_amended_sample_stage_rejection`: the primitive part at
the `uint64_t` input `[0, 100]` (sampled estimate `101 > 2`), the key part
at the key list `[0, 1000]` (sampled estimate `1001 > 4`). -/
theorem c5_amended_sample_stage_rejection_witness :
    (safe_range_u64 (sampled_minmax Nat.blt (0 :: [100]) 0).1
        (sampled_minmax Nat.blt (0 :: [100]) 0).2 > (0 :: [100] : List Nat).length ∧
      detect_dense_range Nat.blt safe_range_u64 (0 :: [100]) = none) ∧
    ((sampled_minmax intLtB ((0 : Int) :: [1000]) 0).2 -
          (sampled_minmax intLtB ((0 : Int) :: [1000]) 0).1 + 1 >
        (((0 : Int) :: [1000] : List Int).length : Int) * 2 ∧
      detect_dense_range_keys ((0 : Int) :: [1000]) = none) :=
  ⟨⟨by decide,
    c5_amended_sample_stage_rejection.1 Nat Nat.blt safe_range_u64 0 [100] (by decide)⟩,
   ⟨by decide, c5_amended_sample_stage_rejection.2 0 [1000] (by decide)⟩⟩

/-- **C9.** In `radix_sort_32`, `radix_sort_64` and `radix_sort_64_stable`
the pass loop performs an even number of source/destination swaps (4
passes for 32-bit width, 8 for 64-bit), so after the loop the source
pointer is again the caller's array: the tracked `src == arr` flag ends
`true` for every input and scratch buffer, hence the conditional
copy-back branch (`src != arr`) is never taken and the sorted encoded
data already lies in the caller's array. -/
theorem c9_radix_even_passes_end_in_arr (arr temp : List Nat) :
    (radix_loop shifts32 (arr, temp, true)).2.2 = true ∧
    (radix_loop shifts64 (arr, temp, true)).2.2 = true ∧
    (radix_loop shifts64 (arr.map to_unsigned_u64, temp, true)).2.2 = true := by
  refine ⟨rfl, rfl, rfl⟩

set_option maxRecDepth 6000 in
/-- **C1.** The claim states every `sort` call leaves a sorted permutation
of the input.  For the input `c1_input` the dispatch reaches tier 3 (the
range detector wrongly classifies the wrapped range `0` as dense, see C4),
and `counting_sort` computes `range = (size_t)(max - min + 1) = 0`,
allocates an empty histogram, and immediately indexes it out of bounds
(`count[arr[0] - min] = count[1]` on a zero-sized `std::vector`) —
undefined behaviour instead of a sorted permutation; the embedding
returns `none`. -/
theorem c1_sort_oob_on_wrapped_range : sort_u64 c1_input = none := by decide

set_option maxRecDepth 5000 in
/-- **C3.** The claim states `sort_by_key` always leaves the records in
non-decreasing key order (and stable) on every dispatch path, for key
functions returning a 32-bit integer — signed or unsigned (§6).  On the
counting-sort path the keys are compared as `int32_t` even when the key
function returns `uint32_t`, so for `c3_input` the two records with key
`0xFFFFFFFF = 4294967295` (stored as `-1`) are placed *first*: the output
keys at positions 1 and 2 are `4294967295` followed by `0`, a strictly
decreasing adjacent pair under the unsigned key order. -/
theorem c3_sort_by_key_misorders_uint32_keys :
    (((sort_by_key_u32 Prod.fst (0, 0) c3_input).getD []).map Prod.fst).getD 1 0 =
      4294967295 ∧
    (((sort_by_key_u32 Prod.fst (0, 0) c3_input).getD []).map Prod.fst).getD 2 0 = 0 := by
  refine ⟨by decide, by decide⟩

/-! ### Correctness of a radix pass

`radix_place_spec` characterizes the backwards stable placement;
`radix_pass_eq_buckets` shows a pass concatenates the 256 digit buckets
in order; `radix_loop_sorted_32/64` accumulate sortedness on the low bits
across the passes. -/

theorem radix_place_spec (sh : Nat) (l : List Nat) (c : Nat → Nat) (d : Nat → Nat)
    (Hge : ∀ b, (l.filter (fun x => digit sh x == b)).length ≤ c b)
    (Hsep : ∀ b b', b < b' → 0 < (l.filter (fun x => digit sh x == b')).length →
      c b ≤ c b' - (l.filter (fun x => digit sh x == b')).length) :
    (∀ b, (radix_place sh l c d).1 b = c b - (l.filter (fun x => digit sh x == b)).length) ∧
    (∀ b j, j < (l.filter (fun x => digit sh x == b)).length →
      (radix_place sh l c d).2 (c b - (l.filter (fun x => digit sh x == b)).length + j) =
        (l.filter (fun x => digit sh x == b)).getD j 0) ∧
    (∀ p, (∀ b, p < c b - (l.filter (fun x => digit sh x == b)).length ∨ c b ≤ p) →
      (radix_place sh l c d).2 p = d p) := by
  induction l with
  | nil =>
    refine ⟨fun b => by simp [radix_place], fun b j hj => by simp at hj,
      fun p hp => by simp [radix_place]⟩
  | cons x t ih =>
    -- counts of the tail
    have hcons_eq : ∀ b, digit sh x = b →
        (x :: t).filter (fun y => digit sh y == b) = x :: t.filter (fun y => digit sh y == b) := by
      intro b hb
      simp [List.filter_cons, hb]
    have hcons_ne : ∀ b, digit sh x ≠ b →
        (x :: t).filter (fun y => digit sh y == b) = t.filter (fun y => digit sh y == b) := by
      intro b hb
      simp [List.filter_cons, hb]
    have hlen : ∀ b, (t.filter (fun y => digit sh y == b)).length ≤
        ((x :: t).filter (fun y => digit sh y == b)).length := by
      intro b
      by_cases hb : digit sh x = b
      · rw [hcons_eq b hb]; simp
      · rw [hcons_ne b hb]
    obtain ⟨ih1, ih2, ih3⟩ := ih (fun b => le_trans (hlen b) (Hge b))
      (fun b b' hbb hpos => le_trans (Hsep b b' hbb (lt_of_lt_of_le hpos (hlen b')))
        (by have := hlen b'; omega))
    -- the step
    have hstep1 : (radix_place sh (x :: t) c d).1 =
        Function.update (radix_place sh t c d).1 (digit sh x)
          ((radix_place sh t c d).1 (digit sh x) - 1) := rfl
    have hstep2 : (radix_place sh (x :: t) c d).2 =
        Function.update (radix_place sh t c d).2
          ((radix_place sh t c d).1 (digit sh x) - 1) x := rfl
    have hb0len : ((x :: t).filter (fun y => digit sh y == digit sh x)).length =
        (t.filter (fun y => digit sh y == digit sh x)).length + 1 := by
      rw [hcons_eq _ rfl]; simp
    have hp0 : (radix_place sh t c d).1 (digit sh x) - 1 =
        c (digit sh x) - ((x :: t).filter (fun y => digit sh y == digit sh x)).length := by
      rw [ih1, hb0len]
      have := Hge (digit sh x)
      rw [hb0len] at this
      omega
    refine ⟨?_, ?_, ?_⟩
    · intro b
      rw [hstep1]
      by_cases hb : b = digit sh x
      · subst hb
        simp only [Function.update_same]
        exact hp0
      · simp only [Function.update_noteq hb]
        rw [ih1, hcons_ne b (fun h => hb h.symm)]
    · intro b j hj
      rw [hstep2]
      by_cases hb : b = digit sh x
      · subst hb
        rw [hb0len] at hj
        rcases Nat.eq_zero_or_pos j with hj0 | hjpos
        · subst hj0
          have hq : c (digit sh x) - ((x :: t).filter (fun y => digit sh y == digit sh x)).length + 0 =
              (radix_place sh t c d).1 (digit sh x) - 1 := by rw [hp0]; omega
          rw [hq, Function.update_same, hcons_eq _ rfl]
          simp
        · obtain ⟨j', rfl⟩ : ∃ j', j = j' + 1 := ⟨j - 1, by omega⟩
          have hge0 := Hge (digit sh x)
          rw [hb0len] at hge0
          have hq : c (digit sh x) - ((x :: t).filter (fun y => digit sh y == digit sh x)).length +
              (j' + 1) =
              c (digit sh x) - (t.filter (fun y => digit sh y == digit sh x)).length + j' := by
            rw [hb0len]; omega
          have hqne : c (digit sh x) - ((x :: t).filter (fun y => digit sh y == digit sh x)).length +
              (j' + 1) ≠ (radix_place sh t c d).1 (digit sh x) - 1 := by
            rw [hp0]; omega
          simp only [Function.update_noteq hqne]
          rw [hq, ih2 _ j' (by omega), hcons_eq _ rfl]
          simp
      · -- other bucket
        have hbne : digit sh x ≠ b := fun h => hb h.symm
        rw [hcons_ne b hbne] at hj ⊢
        have hgeb := Hge b
        rw [hcons_ne b hbne] at hgeb
        have hqne : c b - (t.filter (fun y => digit sh y == b)).length + j ≠
            (radix_place sh t c d).1 (digit sh x) - 1 := by
          rw [hp0]
          have hge0 := Hge (digit sh x)
          rw [hb0len] at hge0
          rcases Nat.lt_or_ge b (digit sh x) with hlt | hge
          · have hs := Hsep b (digit sh x) hlt (by rw [hb0len]; omega)
            rw [hb0len] at hs
            omega
          · have hgt : digit sh x < b := by omega
            have hs := Hsep (digit sh x) b hgt (by rw [hcons_ne b hbne]; omega)
            rw [hcons_ne b hbne] at hs
            omega
        simp only [Function.update_noteq hqne]
        exact ih2 b j hj
    · intro p hp
      rw [hstep2]
      have hge0 := Hge (digit sh x)
      rw [hb0len] at hge0
      have hpne : p ≠ (radix_place sh t c d).1 (digit sh x) - 1 := by
        rw [hp0]
        have := hp (digit sh x)
        rw [hb0len] at this
        omega
      simp only [Function.update_noteq hpne]
      apply ih3
      intro b
      have := hp b
      have := hlen b
      omega

theorem digit_lt_256 (sh x : Nat) : digit sh x < 256 :=
  lt_of_le_of_lt Nat.and_le_right (by norm_num)

theorem count_fold_spec (sh : Nat) (l : List Nat) :
    ∀ (c : Nat → Nat) (b : Nat),
      (l.foldl (fun c x => Function.update c (digit sh x) (c (digit sh x) + 1)) c) b =
        c b + (l.filter (fun x => digit sh x == b)).length := by
  induction l with
  | nil => intro c b; simp
  | cons x t ih =>
    intro c b
    simp only [List.foldl_cons, List.filter_cons]
    rw [ih]
    by_cases hb : digit sh x = b
    · subst hb
      simp [Function.update_same]
      omega
    · rw [Function.update_noteq (fun h => hb h.symm)]
      simp [hb]

theorem radix_count_spec (sh : Nat) (l : List Nat) (b : Nat) :
    radix_count sh l b = (l.filter (fun x => digit sh x == b)).length := by
  unfold radix_count
  rw [count_fold_spec]
  simp

theorem prefix_fold_spec (c : Nat → Nat) :
    ∀ (k b : Nat),
      ((List.range' 1 k).foldl (fun c i => Function.update c i (c i + c (i - 1))) c) b =
        if b ≤ k then ∑ a ∈ Finset.range (b + 1), c a else c b := by
  intro k
  induction k with
  | zero =>
    intro b
    rcases Nat.eq_zero_or_pos b with hb | hb
    · subst hb; simp [Finset.sum_range_one]
    · simp only [List.range', List.foldl_nil]
      rw [if_neg (by omega)]
  | succ k ih =>
    intro b
    rw [List.range'_1_concat, List.foldl_append, List.foldl_cons, List.foldl_nil]
    by_cases hb : b = 1 + k
    · subst hb
      rw [Function.update_same]
      rw [show (1 + k : Nat) = k + 1 from Nat.add_comm 1 k]
      rw [show (k + 1 - 1 : Nat) = k from by omega]
      rw [ih, ih]
      rw [if_neg (by omega), if_pos (by omega), if_pos (by omega)]
      rw [Finset.sum_range_succ c (k + 1)]
      omega
    · rw [Function.update_noteq hb]
      rw [ih]
      by_cases hbk : b ≤ k
      · rw [if_pos hbk, if_pos (by omega)]
      · rw [if_neg hbk, if_neg (by omega)]

theorem sum_bucket_lengths (sh : Nat) (l : List Nat) :
    ∑ b ∈ Finset.range 256, (l.filter (fun x => digit sh x == b)).length = l.length := by
  induction l with
  | nil => simp
  | cons x t ih =>
    have hsplit : ∀ b, ((x :: t).filter (fun y => digit sh y == b)).length =
        (t.filter (fun y => digit sh y == b)).length + (if digit sh x = b then 1 else 0) := by
      intro b
      by_cases hb : digit sh x = b <;> simp [List.filter_cons, hb]
    rw [Finset.sum_congr rfl (fun b _ => hsplit b), Finset.sum_add_distrib, ih]
    have : (∑ b ∈ Finset.range 256, if digit sh x = b then 1 else 0) = 1 := by
      rw [Finset.sum_ite_eq (Finset.range 256) (digit sh x) (fun _ => 1)]
      simp [digit_lt_256]
    rw [this]
    simp

theorem map_range_getD (L : List Nat) :
    (List.range L.length).map (fun j => L.getD j 0) = L := by
  induction L with
  | nil => simp
  | cons a t ih =>
    simp only [List.length_cons, List.range_succ_eq_map, List.map_cons, List.map_map]
    rw [show ((fun j => (a :: t).getD j 0) ∘ Nat.succ) = (fun j => t.getD j 0) from rfl]
    rw [ih]
    rfl

theorem radix_pass_eq_buckets (sh : Nat) (l dst0 : List Nat) :
    radix_pass sh l dst0 =
      (List.range 256).flatMap (fun b => l.filter (fun x => digit sh x == b)) := by
  have hzero : ∀ b, 256 ≤ b → (l.filter (fun x => digit sh x == b)).length = 0 := by
    intro b hb
    rw [List.length_eq_zero]
    apply List.filter_eq_nil_iff.mpr
    intro a ha
    have := digit_lt_256 sh a
    simp only [beq_iff_eq]
    omega
  have hcb : ∀ b, prefix_sum_loop 256 (radix_count sh l) b =
      if b ≤ 255 then ∑ a ∈ Finset.range (b + 1), (l.filter (fun x => digit sh x == a)).length
      else (l.filter (fun x => digit sh x == b)).length := by
    intro b
    unfold prefix_sum_loop
    rw [show (256 - 1 : Nat) = 255 from rfl]
    rw [prefix_fold_spec]
    by_cases hb : b ≤ 255
    · rw [if_pos hb, if_pos hb]
      exact Finset.sum_congr rfl (fun a _ => radix_count_spec sh l a)
    · rw [if_neg hb, if_neg hb, radix_count_spec]
  have Hge : ∀ b, (l.filter (fun x => digit sh x == b)).length ≤
      prefix_sum_loop 256 (radix_count sh l) b := by
    intro b
    rw [hcb]
    by_cases hb : b ≤ 255
    · rw [if_pos hb]
      exact Finset.single_le_sum (f := fun a => (l.filter (fun x => digit sh x == a)).length)
        (fun _ _ => Nat.zero_le _) (Finset.mem_range.mpr (by omega))
    · rw [if_neg hb]
  have Hsep : ∀ b b', b < b' → 0 < (l.filter (fun x => digit sh x == b')).length →
      prefix_sum_loop 256 (radix_count sh l) b ≤
        prefix_sum_loop 256 (radix_count sh l) b' -
          (l.filter (fun x => digit sh x == b')).length := by
    intro b b' hbb hpos
    have hb' : b' ≤ 255 := by
      by_contra hc
      have := hzero b' (by omega)
      omega
    rw [hcb, hcb, if_pos (by omega), if_pos hb']
    have hsub : Finset.range (b + 1) ⊆ Finset.range b' := by
      intro a ha
      simp at ha ⊢
      omega
    have hmono : (∑ a ∈ Finset.range (b + 1), (l.filter (fun x => digit sh x == a)).length) ≤
        ∑ a ∈ Finset.range b', (l.filter (fun x => digit sh x == a)).length :=
      Finset.sum_le_sum_of_subset hsub
    have hsucc : ∑ a ∈ Finset.range (b' + 1), (l.filter (fun x => digit sh x == a)).length =
        (∑ a ∈ Finset.range b', (l.filter (fun x => digit sh x == a)).length) +
          (l.filter (fun x => digit sh x == b')).length := Finset.sum_range_succ _ b'
    omega
  obtain ⟨h1, h2, h3⟩ := radix_place_spec sh l (prefix_sum_loop 256 (radix_count sh l))
    (fun i => dst0.getD i 0) Hge Hsep
  have main : ∀ k, k ≤ 256 →
      (List.range (∑ b ∈ Finset.range k, (l.filter (fun x => digit sh x == b)).length)).map
        (radix_place sh l (prefix_sum_loop 256 (radix_count sh l)) (fun i => dst0.getD i 0)).2 =
      (List.range k).flatMap (fun b => l.filter (fun x => digit sh x == b)) := by
    intro k
    induction k with
    | zero => intro _; simp
    | succ k ihk =>
      intro hk
      rw [Finset.sum_range_succ, List.range_add, List.map_append, ihk (by omega)]
      rw [List.range_succ, List.flatMap_append]
      congr 1
      · rw [List.map_map]
        have hck : prefix_sum_loop 256 (radix_count sh l) k =
            (∑ b ∈ Finset.range k, (l.filter (fun x => digit sh x == b)).length) +
              (l.filter (fun x => digit sh x == k)).length := by
          rw [hcb, if_pos (by omega)]
          exact Finset.sum_range_succ _ k
        have hseg : ∀ j ∈ List.range (l.filter (fun x => digit sh x == k)).length,
            ((radix_place sh l (prefix_sum_loop 256 (radix_count sh l))
                (fun i => dst0.getD i 0)).2 ∘
              (fun j => (∑ b ∈ Finset.range k,
                (l.filter (fun x => digit sh x == b)).length) + j)) j =
            (l.filter (fun x => digit sh x == k)).getD j 0 := by
          intro j hj
          rw [List.mem_range] at hj
          have h2k := h2 k j hj
          simp only [Function.comp]
          rw [show (∑ b ∈ Finset.range k, (l.filter (fun x => digit sh x == b)).length) =
            prefix_sum_loop 256 (radix_count sh l) k -
              (l.filter (fun x => digit sh x == k)).length from by omega]
          exact h2k
        rw [List.map_congr_left hseg, map_range_getD]
        simp
  have hfinal := main 256 le_rfl
  rw [sum_bucket_lengths] at hfinal
  exact hfinal

theorem digit_eq_div_mod (sh x : Nat) : digit sh x = x / 2 ^ sh % 256 := by
  unfold digit
  rw [Nat.shiftRight_eq_div_pow]
  rw [show (0xFF : Nat) = 2 ^ 8 - 1 from rfl]
  rw [Nat.and_pow_two_sub_one_eq_mod]

theorem mod_succ_decompose (sh x : Nat) :
    x % 2 ^ (sh + 8) = digit sh x * 2 ^ sh + x % 2 ^ sh := by
  rw [digit_eq_div_mod, pow_add, Nat.mod_mul]
  have h8 : (2 : Nat) ^ 8 = 256 := rfl
  rw [h8]
  ring

theorem pairwise_lowLe_zero (l : List Nat) : l.Pairwise (lowLe 0) := by
  induction l with
  | nil => exact .nil
  | cons x t ih => exact .cons (fun y _ => by simp [lowLe, Nat.mod_one]) ih

theorem pass_sorted_mem (sh : Nat) (l dst0 : List Nat) (h : l.Pairwise (lowLe sh)) :
    (radix_pass sh l dst0).Pairwise (lowLe (sh + 8)) ∧
    ∀ y ∈ radix_pass sh l dst0, y ∈ l := by
  rw [radix_pass_eq_buckets]
  constructor
  · rw [List.pairwise_flatMap]
    constructor
    · intro b _
      have hpw : (l.filter (fun x => digit sh x == b)).Pairwise (lowLe sh) :=
        h.sublist (List.filter_sublist l)
      refine hpw.imp_of_mem ?_
      intro x y hx hy hxy
      have hdx : digit sh x = b := by simpa using List.of_mem_filter hx
      have hdy : digit sh y = b := by simpa using List.of_mem_filter hy
      unfold lowLe at hxy ⊢
      rw [mod_succ_decompose, mod_succ_decompose, hdx, hdy]
      omega
    · have hrange : (List.range 256).Pairwise (· < ·) := List.pairwise_lt_range 256
      refine List.Pairwise.imp ?_ hrange
      intro a b hab x hx y hy
      have hdx : digit sh x = a := by simpa using List.of_mem_filter hx
      have hdy : digit sh y = b := by simpa using List.of_mem_filter hy
      unfold lowLe
      rw [mod_succ_decompose, mod_succ_decompose, hdx, hdy]
      have hxm : x % 2 ^ sh < 2 ^ sh := Nat.mod_lt _ (Nat.two_pow_pos sh)
      have h1 : a * 2 ^ sh + 2 ^ sh = (a + 1) * 2 ^ sh := by ring
      have h2 : (a + 1) * 2 ^ sh ≤ b * 2 ^ sh :=
        Nat.mul_le_mul_right _ (by omega)
      omega
  · intro y hy
    rw [List.mem_flatMap] at hy
    obtain ⟨b, _, hyb⟩ := hy
    exact List.mem_of_mem_filter hyb

theorem radix_loop_sorted_gen (m : Nat) :
    ∀ (sh0 : Nat) (cur alt : List Nat) (flag : Bool),
      cur.Pairwise (lowLe sh0) →
      ((radix_loop ((List.range m).map (fun i => sh0 + 8 * i)) (cur, alt, flag)).1).Pairwise
          (lowLe (sh0 + 8 * m)) ∧
      ∀ y ∈ (radix_loop ((List.range m).map (fun i => sh0 + 8 * i)) (cur, alt, flag)).1,
        y ∈ cur := by
  induction m with
  | zero =>
    intro sh0 cur alt flag h
    simp only [List.range_zero, List.map_nil]
    constructor
    · simpa using h
    · intro y hy
      exact hy
  | succ m ih =>
    intro sh0 cur alt flag h
    have hshifts : (List.range (m + 1)).map (fun i => sh0 + 8 * i) =
        sh0 :: (List.range m).map (fun i => (sh0 + 8) + 8 * i) := by
      rw [List.range_succ_eq_map, List.map_cons, List.map_map]
      rw [show sh0 + 8 * 0 = sh0 from by ring]
      congr 1
      refine List.map_congr_left ?_
      intro i _
      show sh0 + 8 * (i + 1) = sh0 + 8 + 8 * i
      ring
    rw [hshifts]
    have hstep : radix_loop (sh0 :: (List.range m).map (fun i => (sh0 + 8) + 8 * i))
        (cur, alt, flag) =
        radix_loop ((List.range m).map (fun i => (sh0 + 8) + 8 * i))
          (radix_pass sh0 cur alt, cur, !flag) := rfl
    rw [hstep]
    have hps := pass_sorted_mem sh0 cur alt h
    have hih := ih (sh0 + 8) (radix_pass sh0 cur alt) cur (!flag) hps.1
    constructor
    · have harith : sh0 + 8 + 8 * m = sh0 + 8 * (m + 1) := by ring
      rw [harith] at hih
      exact hih.1
    · intro y hy
      exact hps.2 _ (hih.2 y hy)

theorem radix_loop_sorted_32 (l temp : List Nat) :
    ((radix_loop shifts32 (l, temp, true)).1).Pairwise (lowLe 32) ∧
    ∀ y ∈ (radix_loop shifts32 (l, temp, true)).1, y ∈ l := by
  have h := radix_loop_sorted_gen 4 0 l temp true (pairwise_lowLe_zero l)
  rw [show (List.range 4).map (fun i => 0 + 8 * i) = shifts32 from by decide] at h
  simpa using h

theorem radix_loop_sorted_64 (l temp : List Nat) :
    ((radix_loop shifts64 (l, temp, true)).1).Pairwise (lowLe 64) ∧
    ∀ y ∈ (radix_loop shifts64 (l, temp, true)).1, y ∈ l := by
  have h := radix_loop_sorted_gen 8 0 l temp true (pairwise_lowLe_zero l)
  rw [show (List.range 8).map (fun i => 0 + 8 * i) = shifts64 from by decide] at h
  simpa using h

theorem radix_pass_length (sh : Nat) (l dst0 : List Nat) :
    (radix_pass sh l dst0).length = l.length := by
  unfold radix_pass
  rw [List.length_map, List.length_range]

theorem radix_loop_length (shifts : List Nat) :
    ∀ st : List Nat × List Nat × Bool, ((radix_loop shifts st).1).length = st.1.length := by
  induction shifts with
  | nil => intro st; rfl
  | cons sh rest ih =>
    intro st
    have hstep : radix_loop (sh :: rest) st =
        radix_loop rest (radix_pass sh st.1 st.2.1, st.1, !st.2.2) := rfl
    rw [hstep, ih]
    exact radix_pass_length sh st.1 st.2.1

theorem to_unsigned_f32_lt {bits : Nat} (h : bits < 2 ^ 32) :
    to_unsigned_f32 bits < 2 ^ 32 := by
  rw [to_unsigned_f32_eq h]
  split <;> omega

theorem to_unsigned_f64_lt {bits : Nat} (h : bits < 2 ^ 64) :
    to_unsigned_f64 bits < 2 ^ 64 := by
  rw [to_unsigned_f64_eq h]
  split <;> omega

theorem to_from_f32 {v : Nat} (h : v < 2 ^ 32) :
    to_unsigned_f32 (from_unsigned_f32 v) = v := by
  rw [from_unsigned_f32_eq h]
  by_cases hs : 2 ^ 31 ≤ v
  · rw [if_pos hs, to_unsigned_f32_eq (by omega)]
    rw [if_neg (by norm_num at h hs ⊢; omega)]
    norm_num at h hs ⊢
    omega
  · rw [if_neg hs, to_unsigned_f32_eq (by omega)]
    rw [if_pos (by norm_num at h hs ⊢; omega)]
    norm_num at h hs ⊢
    omega

theorem to_from_f64 {v : Nat} (h : v < 2 ^ 64) :
    to_unsigned_f64 (from_unsigned_f64 v) = v := by
  rw [from_unsigned_f64_eq h]
  by_cases hs : 2 ^ 63 ≤ v
  · rw [if_pos hs, to_unsigned_f64_eq (by omega)]
    rw [if_neg (by norm_num at h hs ⊢; omega)]
    norm_num at h hs ⊢
    omega
  · rw [if_neg hs, to_unsigned_f64_eq (by omega)]
    rw [if_pos (by norm_num at h hs ⊢; omega)]
    norm_num at h hs ⊢
    omega

/-- On the radix path, `radix_sort_32` puts every `-0.0` strictly before
every `+0.0`: the encoded data ends sorted, and
`encode(-0.0) = 0x7FFFFFFF < 0x80000000 = encode(+0.0)`. -/
theorem radix_sort_32_f32_zeros (l temp : List Nat) (hb : ∀ x ∈ l, x < 2 ^ 32) :
    ∀ i j, i < (radix_sort_32_f32 l temp).length →
      j < (radix_sort_32_f32 l temp).length →
      (radix_sort_32_f32 l temp).getD i 0 = 0x80000000 →
      (radix_sort_32_f32 l temp).getD j 0 = 0 → i < j := by
  intro i j hi hj hneg hpos
  unfold radix_sort_32_f32 at hi hj hneg hpos
  obtain ⟨hsort, hmem⟩ := radix_loop_sorted_32 (l.map to_unsigned_f32) temp
  have hresb : ∀ y ∈ (radix_loop shifts32 (l.map to_unsigned_f32, temp, true)).1,
      y < 2 ^ 32 := by
    intro y hy
    obtain ⟨x, hx, rfl⟩ := List.mem_map.mp (hmem y hy)
    exact to_unsigned_f32_lt (hb x hx)
  rw [List.length_map] at hi hj
  rw [List.getD_eq_getElem?_getD, List.getElem?_map, List.getElem?_eq_getElem hi] at hneg
  rw [List.getD_eq_getElem?_getD, List.getElem?_map, List.getElem?_eq_getElem hj] at hpos
  simp only [Option.map_some', Option.getD_some] at hneg hpos
  have hi32 : (radix_loop shifts32 (l.map to_unsigned_f32, temp, true)).1[i] < 2 ^ 32 :=
    hresb _ (List.getElem_mem hi)
  have hj32 : (radix_loop shifts32 (l.map to_unsigned_f32, temp, true)).1[j] < 2 ^ 32 :=
    hresb _ (List.getElem_mem hj)
  have h1 : (radix_loop shifts32 (l.map to_unsigned_f32, temp, true)).1[i] = 0x7FFFFFFF := by
    have := congrArg to_unsigned_f32 hneg
    rw [to_from_f32 hi32] at this
    rw [this]
    decide
  have h2 : (radix_loop shifts32 (l.map to_unsigned_f32, temp, true)).1[j] = 0x80000000 := by
    have := congrArg to_unsigned_f32 hpos
    rw [to_from_f32 hj32] at this
    rw [this]
    decide
  rw [List.pairwise_iff_getElem] at hsort
  by_contra hij
  rcases Nat.lt_or_ge j i with hji | hji
  · have := hsort j i hj hi hji
    unfold lowLe at this
    rw [h1, h2] at this
    omega
  · have heq : i = j := by omega
    subst heq
    rw [h1] at h2
    norm_num at h2

set_option maxHeartbeats 1600000 in
/-- On the radix path, `radix_sort_64` puts every `-0.0` strictly before
every `+0.0` (double version). -/
theorem radix_sort_64_f64_zeros (l temp : List Nat) (hb : ∀ x ∈ l, x < 2 ^ 64) :
    ∀ i j, i < (radix_sort_64_f64 l temp).length →
      j < (radix_sort_64_f64 l temp).length →
      (radix_sort_64_f64 l temp).getD i 0 = 0x8000000000000000 →
      (radix_sort_64_f64 l temp).getD j 0 = 0 → i < j := by
  intro i j hi hj hneg hpos
  unfold radix_sort_64_f64 at hi hj hneg hpos
  obtain ⟨hsort, hmem⟩ := radix_loop_sorted_64 (l.map to_unsigned_f64) temp
  revert hsort hmem hi hj hneg hpos
  generalize (radix_loop shifts64 (l.map to_unsigned_f64, temp, true)).1 = res
  intro hi hj hneg hpos hsort hmem
  have hresb : ∀ y ∈ res, y < 2 ^ 64 := by
    intro y hy
    obtain ⟨x, hx, rfl⟩ := List.mem_map.mp (hmem y hy)
    exact to_unsigned_f64_lt (hb x hx)
  rw [List.length_map] at hi hj
  rw [List.getD_eq_getElem?_getD, List.getElem?_map, List.getElem?_eq_getElem hi] at hneg
  rw [List.getD_eq_getElem?_getD, List.getElem?_map, List.getElem?_eq_getElem hj] at hpos
  simp only [Option.map_some', Option.getD_some] at hneg hpos
  have hi64 : res[i] < 2 ^ 64 := hresb _ (List.getElem_mem hi)
  have hj64 : res[j] < 2 ^ 64 := hresb _ (List.getElem_mem hj)
  have h1 : res[i] = 0x7FFFFFFFFFFFFFFF := by
    have := congrArg to_unsigned_f64 hneg
    rw [to_from_f64 hi64] at this
    rw [this]
    decide
  have h2 : res[j] = 0x8000000000000000 := by
    have := congrArg to_unsigned_f64 hpos
    rw [to_from_f64 hj64] at this
    rw [this]
    decide
  rw [List.pairwise_iff_getElem] at hsort
  by_contra hij
  rcases Nat.lt_or_ge j i with hji | hji
  · have := hsort j i hj hi hji
    unfold lowLe at this
    rw [h1, h2] at this
    omega
  · have heq : i = j := by omega
    subst heq
    rw [h1] at h2
    norm_num at h2

/-- **C6 counterexample.** The claim requires `-0.0` strictly before
`+0.0` on *every* dispatch path, including the small-array and
pattern-detector fallback paths.  On those paths the comparison sort uses
`operator<`, under which `-0.0 == +0.0`, and `std::stable_sort` preserves
the input order of equivalent elements: `stable_sort([+0.0, -0.0])`
returns `[+0.0, -0.0]` (bit patterns `[0, 0x80000000]`), with `+0.0`
strictly *before* `-0.0`. -/
theorem c6_counterexample_fallback_keeps_zero_order :
    stable_sort_f32 [0, 0x80000000] = [0, 0x80000000] ∧
    ¬ (∀ i j (hi : i < (stable_sort_f32 [0, 0x80000000]).length)
        (hj : j < (stable_sort_f32 [0, 0x80000000]).length),
        (stable_sort_f32 [0, 0x80000000]).get ⟨i, hi⟩ = 0x80000000 →
        (stable_sort_f32 [0, 0x80000000]).get ⟨j, hj⟩ = 0 → i < j) := by
  constructor
  · decide
  · intro hall
    have := hall 1 0 (by decide) (by decide) (by decide) (by decide)
    omega

/-- **C6 (amended).** For float and double inputs, on the radix dispatch
path (`n ≥ 256` and the pattern detector rejects) every `-0.0` occupies a
strictly earlier output position than every `+0.0`, for both the unstable
and the stable implementations and any scratch buffer (hence for all four
public entry points when they reach the radix tier); on the comparison
fallback paths `-0.0` and `+0.0` compare equal and stay in the order the
fallback produces, so the original claim fails there (see the
counterexample). -/
theorem c6_amended_neg_zero_first_on_radix_path :
    (∀ l temp : List Nat, (∀ x ∈ l, x < 2 ^ 32) → 256 ≤ l.length →
      pattern_ok f32leB l = false →
      ∀ i j, i < (tieredsort_impl_f32 l temp).length →
        j < (tieredsort_impl_f32 l temp).length →
        (tieredsort_impl_f32 l temp).getD i 0 = 0x80000000 →
        (tieredsort_impl_f32 l temp).getD j 0 = 0 → i < j) ∧
    (∀ l temp : List Nat, (∀ x ∈ l, x < 2 ^ 32) → 256 ≤ l.length →
      pattern_ok f32leB l = false →
      ∀ i j, i < (tieredsort_stable_impl_f32 l temp).length →
        j < (tieredsort_stable_impl_f32 l temp).length →
        (tieredsort_stable_impl_f32 l temp).getD i 0 = 0x80000000 →
        (tieredsort_stable_impl_f32 l temp).getD j 0 = 0 → i < j) ∧
    (∀ l temp : List Nat, (∀ x ∈ l, x < 2 ^ 64) → 256 ≤ l.length →
      pattern_ok f64leB l = false →
      ∀ i j, i < (tieredsort_impl_f64 l temp).length →
        j < (tieredsort_impl_f64 l temp).length →
        (tieredsort_impl_f64 l temp).getD i 0 = 0x8000000000000000 →
        (tieredsort_impl_f64 l temp).getD j 0 = 0 → i < j) ∧
    (∀ l temp : List Nat, (∀ x ∈ l, x < 2 ^ 64) → 256 ≤ l.length →
      pattern_ok f64leB l = false →
      ∀ i j, i < (tieredsort_stable_impl_f64 l temp).length →
        j < (tieredsort_stable_impl_f64 l temp).length →
        (tieredsort_stable_impl_f64 l temp).getD i 0 = 0x8000000000000000 →
        (tieredsort_stable_impl_f64 l temp).getD j 0 = 0 → i < j) := by
  refine ⟨?_, ?_, ?_, ?_⟩ <;> intro l temp hb hn hpat
  · have himpl : tieredsort_impl_f32 l temp = radix_sort_32_f32 l temp := by
      unfold tieredsort_impl_f32
      rw [if_neg (by omega), hpat]
      simp
    simp only [himpl]
    exact radix_sort_32_f32_zeros l temp hb
  · have himpl : tieredsort_stable_impl_f32 l temp = radix_sort_32_f32 l temp := by
      unfold tieredsort_stable_impl_f32
      rw [if_neg (by omega), hpat]
      simp
    simp only [himpl]
    exact radix_sort_32_f32_zeros l temp hb
  · have himpl : tieredsort_impl_f64 l temp = radix_sort_64_f64 l temp := by
      unfold tieredsort_impl_f64
      rw [if_neg (by omega), hpat]
      simp
    simp only [himpl]
    exact radix_sort_64_f64_zeros l temp hb
  · have himpl : tieredsort_stable_impl_f64 l temp = radix_sort_64_f64 l temp := by
      unfold tieredsort_stable_impl_f64
      rw [if_neg (by omega), hpat]
      simp
    simp only [himpl]
    exact radix_sort_64_f64_zeros l temp hb

set_option maxRecDepth 4000 in
/-- Witness for `c6_amended_neg_zero_first_on_radix_path`: the first
conjunct applied to the concrete length-256 float input `c6_winput`
(which contains both `-0.0` and `+0.0`), discharging all three
hypotheses. -/
theorem c6_amended_neg_zero_first_on_radix_path_witness :
    (∀ x ∈ c6_winput, x < 2 ^ 32) ∧ 256 ≤ c6_winput.length ∧
    pattern_ok f32leB c6_winput = false ∧
    (∀ i j, i < (tieredsort_impl_f32 c6_winput []).length →
      j < (tieredsort_impl_f32 c6_winput []).length →
      (tieredsort_impl_f32 c6_winput []).getD i 0 = 0x80000000 →
      (tieredsort_impl_f32 c6_winput []).getD j 0 = 0 → i < j) :=
  ⟨by decide, by decide, by decide,
    c6_amended_neg_zero_first_on_radix_path.1 c6_winput []
      (by decide) (by decide) (by decide)⟩

end Tieredsort
